import Mathlib

/-
Verification of the bofa2ftsru statement pipeline (src/bofa2ftsru.py).

The shallow embedding below mirrors the Python source:
  * `Date` models `datetime.date` as a year/month/day triple ordered
    lexicographically (Python compares dates that way).
  * Money (`Decimal` with exactly two fractional digits) is modelled as an
    `Int` counting cents; Python's `Decimal` arithmetic on such values is
    exact, and `Decimal.__eq__` identifies `0.00` with `-0.00`, so the cent
    count determines a value up to Python equality.
  * A Python `str` is modelled as `List Char`.
  * Fallible code (an `assert` in the source, or an `IndexError` on an empty
    record list) is modelled with `Option`: `none` is a fatal error.
-/

set_option maxRecDepth 10000

abbrev Str := List Char

structure Date where
  year : Nat
  month : Nat
  day : Nat
deriving DecidableEq, Repr, Inhabited

def Date.lt (a b : Date) : Prop :=
  a.year < b.year ∨
    (a.year = b.year ∧ (a.month < b.month ∨ (a.month = b.month ∧ a.day < b.day)))

instance : LT Date := ⟨Date.lt⟩

def Date.le (a b : Date) : Prop := a < b ∨ a = b

instance : LE Date := ⟨Date.le⟩

instance (a b : Date) : Decidable (a < b) :=
  inferInstanceAs (Decidable (a.year < b.year ∨
    (a.year = b.year ∧ (a.month < b.month ∨ (a.month = b.month ∧ a.day < b.day)))))

instance (a b : Date) : Decidable (a ≤ b) :=
  inferInstanceAs (Decidable (a < b ∨ a = b))

/-- A transaction row: `balance_before` is derived at parse time as
`running_balance - amount` (src/bofa2ftsru.py:126-132). -/
structure Record where
  date : Date
  description : Str
  balance_before : Int
  amount : Int
  running_balance : Int
deriving DecidableEq, Repr, Inhabited

/-- One statement, the dict built by `parse_file` (src/bofa2ftsru.py:112-121).
The `file_name` entry is administrative and not modelled. -/
structure Data where
  beginning_date : Date
  beginning_balance : Int
  total_credits : Int
  total_debits : Int
  ending_date : Date
  ending_balance : Int
  records : List Record
deriving DecidableEq, Repr, Inhabited

/-- `total_credits` (src/bofa2ftsru.py:57-58): sum of the non-negative amounts. -/
def total_credits (data : Data) : Int :=
  ((data.records.filter fun e => decide (0 ≤ e.amount)).map fun e => e.amount).sum

/-- `total_debits` (src/bofa2ftsru.py:61-62): sum of the negative amounts. -/
def total_debits (data : Data) : Int :=
  ((data.records.filter fun e => decide (e.amount < 0)).map fun e => e.amount).sum

/-- The relation checked between consecutive records by `check` inside
`validate` (src/bofa2ftsru.py:75-78). -/
def chainOk (a b : Record) : Prop :=
  a.date ≤ b.date ∧ a.running_balance = b.balance_before

instance : DecidableRel chainOk := fun a b =>
  inferInstanceAs (Decidable (a.date ≤ b.date ∧ a.running_balance = b.balance_before))

/-- `validate` (src/bofa2ftsru.py:65-84): the conjunction of all its asserts.
`r[0]` / `r[-1]` are `headI` / `getLastI`; the `len(r) > 0` assert runs first,
so the defaults are never what the asserts actually compare. -/
def validate (data : Data) : Prop :=
  data.beginning_date < data.ending_date ∧
  data.records ≠ [] ∧
  data.total_credits = total_credits data ∧
  data.total_debits = total_debits data ∧
  (∀ e ∈ data.records, ¬(e.date < data.beginning_date ∨ data.ending_date < e.date)) ∧
  (∀ e ∈ data.records, e.balance_before + e.amount = e.running_balance) ∧
  data.records.headI.balance_before = data.beginning_balance ∧
  List.Chain' chainOk data.records ∧
  data.records.getLastI.running_balance = data.ending_balance ∧
  data.beginning_balance + data.total_credits + data.total_debits = data.ending_balance

/-- A structurally recursive `Decidable` instance for `Chain'`, so that
`decide` can evaluate concrete `validate` checks in the kernel. -/
def decideChain' {α : Type} (R : α → α → Prop) [DecidableRel R] :
    (l : List α) → Decidable (List.Chain' R l)
  | [] => isTrue List.chain'_nil
  | [a] => isTrue (List.chain'_singleton a)
  | a :: b :: t =>
    haveI : Decidable (List.Chain' R (b :: t)) := decideChain' R (b :: t)
    decidable_of_iff (R a b ∧ List.Chain' R (b :: t)) List.chain'_cons.symm

instance (priority := 2000) {α : Type} (R : α → α → Prop) [DecidableRel R]
    (l : List α) : Decidable (List.Chain' R l) :=
  decideChain' R l

instance : DecidablePred validate := fun data =>
  inferInstanceAs (Decidable (_ ∧ _ ∧ _ ∧ _ ∧ _ ∧ _ ∧ _ ∧ _ ∧ _ ∧ _))

/-- `normalize_data` (src/bofa2ftsru.py:161-165).  The Python function mutates
`d` in place and raises `IndexError` when `d['records']` is empty; here the
updated statement is returned, `none` on the empty-records error. -/
def normalize_data (d : Data) : Option Data :=
  match d.records.head?, d.records.getLast? with
  | some first, some last =>
      some { d with
        beginning_balance := first.balance_before,
        ending_balance := last.running_balance,
        total_credits := total_credits d,
        total_debits := total_debits d }
  | _, _ => none

/-- `shared_a` of `merge_data` (src/bofa2ftsru.py:169): the records of `a`
dated on or after `b`'s beginning date. -/
def shared_records (a b : Data) : List Record :=
  a.records.filter fun e => decide (b.beginning_date ≤ e.date)

/-- `merge_data` (src/bofa2ftsru.py:168-178): `none` models the failed
`assert shared_a == shared_b` and the `IndexError` inside `normalize_data`. -/
def merge_data (a b : Data) : Option Data :=
  let shared_a := shared_records a b
  if shared_a ≠ [] ∧ shared_a ≠ b.records.take shared_a.length then
    none
  else
    normalize_data { a with
      records := (a.records.filter fun e => decide (e.date < b.beginning_date)) ++ b.records,
      ending_date := b.ending_date }

/-- The comparison key of `sorted(data_list, key=...)` (src/bofa2ftsru.py:183),
as the Boolean order `mergeSort` takes. -/
def dateble (a b : Data) : Bool :=
  decide (a.beginning_date ≤ b.beginning_date)

/-- `sort_data_list` (src/bofa2ftsru.py:181-184): fails unless the beginning
dates are pairwise distinct, then stable-sorts by beginning date (Python's
`sorted` and `List.mergeSort` are both stable, hence agree). -/
def sort_data_list (l : List Data) : Option (List Data) :=
  if (l.map fun d => d.beginning_date).Nodup then some (l.mergeSort dateble) else none

/-- The relation checked between adjacent statements by `test` inside
`validate_data_list` (src/bofa2ftsru.py:188-191). -/
def orderedPair (a b : Data) : Prop :=
  a.beginning_date < b.beginning_date ∧ a.ending_date < b.ending_date

instance : DecidableRel orderedPair := fun a b =>
  inferInstanceAs (Decidable (a.beginning_date < b.beginning_date ∧
    a.ending_date < b.ending_date))

/-- `validate_data_list` (src/bofa2ftsru.py:187-193).  `reduce(test, l)` raises
`TypeError` on an empty list, hence the `l ≠ []` conjunct. -/
def validate_data_list (l : List Data) : Prop :=
  l ≠ [] ∧ List.Chain' orderedPair l

instance : DecidablePred validate_data_list := fun l =>
  inferInstanceAs (Decidable (l ≠ [] ∧ List.Chain' orderedPair l))

/-- Lines 215-216 of `convert`: sort the parsed statements, then run the
pairwise ordering check; any failure is fatal. -/
def sort_and_check (l : List Data) : Option (List Data) :=
  match sort_data_list l with
  | none => none
  | some s => if validate_data_list s then some s else none

/-- `reduce(merge_data, data_list)` (src/bofa2ftsru.py:217): a left fold whose
first accumulator is the first list element; `reduce` never calls the binary
function on a one-element list. -/
def merge_fold : Data → List Data → Option Data
  | acc, [] => some acc
  | acc, b :: rest =>
    match merge_data acc b with
    | some m => merge_fold m rest
    | none => none

def merge_all : List Data → Option Data
  | [] => none
  | a :: rest => merge_fold a rest

/-- `filter_year` (src/bofa2ftsru.py:201-209).  The Python dict carries only
the three listed keys before `normalize_data` fills the four summary fields;
the zero placeholders below are all overwritten by `normalize_data`, which
fails (`IndexError`) when the filtered record set is empty. -/
def filter_year (data : Data) (year : Nat) : Option Data :=
  normalize_data
    { beginning_date := ⟨year, 1, 1⟩,
      beginning_balance := 0,
      total_credits := 0,
      total_debits := 0,
      ending_date := ⟨year, 12, 31⟩,
      ending_balance := 0,
      records := data.records.filter fun e => decide (e.date.year = year) }

/-- `sorted(list(set([d['date'].year for d in data['records']])))`
(src/bofa2ftsru.py:219): the distinct record years in ascending order. -/
def years_of (data : Data) : List Nat :=
  ((data.records.map fun e => e.date.year).dedup).mergeSort fun a b => decide (a ≤ b)

/- Concrete example statements, used by the witness theorems.  Values are in
cents; `exA` spans 01/01/2020-02/10/2020 and `exB` 02/01/2020-03/05/2020,
overlapping exactly on the record `exR3`. -/

def exR1 : Record :=
  { date := ⟨2020, 1, 2⟩, description := ['a'], balance_before := 0,
    amount := 100, running_balance := 100 }

def exR2 : Record :=
  { date := ⟨2020, 1, 10⟩, description := ['b'], balance_before := 100,
    amount := -30, running_balance := 70 }

def exR3 : Record :=
  { date := ⟨2020, 2, 5⟩, description := ['c'], balance_before := 70,
    amount := 50, running_balance := 120 }

def exR4 : Record :=
  { date := ⟨2020, 3, 1⟩, description := ['d'], balance_before := 120,
    amount := 10, running_balance := 130 }

def exA : Data :=
  { beginning_date := ⟨2020, 1, 1⟩, beginning_balance := 0,
    total_credits := 150, total_debits := -30,
    ending_date := ⟨2020, 2, 10⟩, ending_balance := 120,
    records := [exR1, exR2, exR3] }

def exB : Data :=
  { beginning_date := ⟨2020, 2, 1⟩, beginning_balance := 70,
    total_credits := 60, total_debits := 0,
    ending_date := ⟨2020, 3, 5⟩, ending_balance := 130,
    records := [exR3, exR4] }

/-- The value `merge_data exA exB` computes. -/
def exM : Data :=
  { beginning_date := ⟨2020, 1, 1⟩, beginning_balance := 0,
    total_credits := 160, total_debits := -30,
    ending_date := ⟨2020, 3, 5⟩, ending_balance := 130,
    records := [exR1, exR2, exR3, exR4] }

/- A second pair of statements whose non-overlapping part carries two records
on the same date: the merge succeeds, but the merged dates are not distinct. -/

def exS1 : Record :=
  { date := ⟨2021, 1, 2⟩, description := ['p'], balance_before := 0,
    amount := 100, running_balance := 100 }

def exS2 : Record :=
  { date := ⟨2021, 1, 2⟩, description := ['q'], balance_before := 100,
    amount := 20, running_balance := 120 }

def exS3 : Record :=
  { date := ⟨2021, 2, 5⟩, description := ['r'], balance_before := 120,
    amount := 50, running_balance := 170 }

def exS4 : Record :=
  { date := ⟨2021, 3, 1⟩, description := ['s'], balance_before := 170,
    amount := 10, running_balance := 180 }

def exADup : Data :=
  { beginning_date := ⟨2021, 1, 1⟩, beginning_balance := 0,
    total_credits := 170, total_debits := 0,
    ending_date := ⟨2021, 2, 10⟩, ending_balance := 170,
    records := [exS1, exS2, exS3] }

def exBDup : Data :=
  { beginning_date := ⟨2021, 2, 1⟩, beginning_balance := 120,
    total_credits := 60, total_debits := 0,
    ending_date := ⟨2021, 3, 5⟩, ending_balance := 180,
    records := [exS3, exS4] }

/- ------------------------------------------------------------------
String level: field parsers, the serializer `data_to_str`, the CSV reader
and `parse_file`.  A Python `str` is a `List Char`; `\d` of the money and
date regexes is modelled as the ASCII digits 0-9 (the alphabet the bank
export uses). -/

/-- Digit characters and their value.  `Nat.digitChar n` is '0'..'9' for
`n < 10`. -/
def isDigitChar (c : Char) : Bool :=
  decide (48 ≤ c.toNat) && decide (c.toNat ≤ 57)

def digitVal (c : Char) : Nat := c.toNat - 48

/-- The numeric value of a most-significant-first digit string. -/
def charsVal (l : Str) : Nat := l.foldl (fun acc c => 10 * acc + digitVal c) 0

/-- Decimal digits of `n`, most significant first, no leading zero, `[]` for
`0`.  Fuel-based so that it reduces in the kernel. -/
def natToCharsAux : Nat → Nat → Str → Str
  | 0, _, acc => acc
  | fuel + 1, n, acc =>
    if n = 0 then acc else natToCharsAux fuel (n / 10) (Nat.digitChar (n % 10) :: acc)

def natToChars (n : Nat) : Str := natToCharsAux n n []

/-- The integer part as `str(Decimal)` prints it: `"0"` for zero, otherwise
the digits with no leading zero. -/
def intPartChars (n : Nat) : Str := if n = 0 then ['0'] else natToChars n

/-- Two zero-padded digits, as `%02d` and the two fractional digits of a
two-place `Decimal` print. -/
def pad2 (n : Nat) : Str := [Nat.digitChar (n / 10 % 10), Nat.digitChar (n % 10)]

/-- Four-digit year as `%Y` prints it for 1000..9999. -/
def year4 (n : Nat) : Str :=
  [Nat.digitChar (n / 1000 % 10), Nat.digitChar (n / 100 % 10),
   Nat.digitChar (n / 10 % 10), Nat.digitChar (n % 10)]

/-- `to_date` (src/bofa2ftsru.py:142-143): `MM/DD/YYYY`. -/
def to_date (d : Date) : Str :=
  pad2 d.month ++ '/' :: pad2 d.day ++ '/' :: year4 d.year

/-- `str(Decimal)` for a two-fractional-digit value of `v` cents: optional
minus, integer part with no leading zero, dot, two digits. -/
def moneyChars (v : Int) : Str :=
  (if v < 0 then ['-'] else []) ++
    intPartChars (v.natAbs / 100) ++ '.' :: pad2 (v.natAbs % 100)

/-- The integer-part pattern `(0|[1-9][0-9]*)` of the money regex
(src/bofa2ftsru.py:35). -/
def intPartOk : Str → Bool
  | [] => false
  | c :: cs =>
    if c = '0' then decide (cs = [])
    else decide (49 ≤ c.toNat) && decide (c.toNat ≤ 57) && cs.all isDigitChar

/-- The unsigned part of `parser_money`: digits, dot, exactly two digits. -/
def parseUnsignedMoney (s : Str) : Option Nat :=
  match s.reverse with
  | d2 :: d1 :: dot :: ipRev =>
    if dot = '.' ∧ isDigitChar d1 = true ∧ isDigitChar d2 = true ∧
        intPartOk ipRev.reverse = true then
      some (charsVal ipRev.reverse * 100 + (10 * digitVal d1 + digitVal d2))
    else none
  | _ => none

/-- The body `-?(0|[1-9][0-9]*)\.\d{2}` of `parser_money`'s regex (what
stands between the `^` and `$` anchors), with the exact decimal value in
cents. -/
def parser_money_body (s : Str) : Option Int :=
  match s with
  | [] => none
  | c :: rest =>
    if c = '-' then
      match parseUnsignedMoney rest with
      | some n => some (-(n : Int))
      | none => none
    else
      match parseUnsignedMoney (c :: rest) with
      | some n => some ((n : Int))
      | none => none

/-- `parser_money` (src/bofa2ftsru.py:34-37): the regex
`^-?(0|[1-9][0-9]*)\.\d{2}$` must match the raw cell (so a quoted cell fails
the assert before `strip('"')` ever runs).  Python's `$` also matches just
before one final newline, and `Decimal` ignores trailing whitespace, so the
regex body followed by exactly one trailing `'\n'` is accepted as well, with
the same value.  The value is the exact decimal, in cents; `\d` is modelled
as the ASCII digits `0`-`9`. -/
def parser_money (s : Str) : Option Int :=
  parser_money_body (if s.getLast? = some '\n' then s.dropLast else s)

/-- Days in a month under the Gregorian leap rule, as `datetime.date`
enforces. -/
def monthLen (y m : Nat) : Nat :=
  if m = 2 then (if (y % 4 = 0 ∧ y % 100 ≠ 0) ∨ y % 400 = 0 then 29 else 28)
  else if m = 4 ∨ m = 6 ∨ m = 9 ∨ m = 11 then 30 else 31

/-- The dates `datetime.date` can hold whose `%m/%d/%Y` rendering is the
canonical ten characters (src/bofa2ftsru.py:19-24 re-renders and compares, so
years below 1000, which `strftime` prints without padding, are rejected). -/
def DateValid (d : Date) : Prop :=
  1 ≤ d.month ∧ d.month ≤ 12 ∧ 1 ≤ d.day ∧ d.day ≤ monthLen d.year d.month ∧
  1000 ≤ d.year ∧ d.year ≤ 9999

instance : DecidablePred DateValid := fun d =>
  inferInstanceAs (Decidable (_ ∧ _ ∧ _ ∧ _ ∧ _ ∧ _))

/-- `parser_date` (src/bofa2ftsru.py:19-24): exactly `MM/DD/YYYY`, a real
calendar date, and re-rendering must reproduce the input. -/
def parser_date (s : Str) : Option Date :=
  match s with
  | [m1, m2, s1, d1, d2, s2, y1, y2, y3, y4] =>
    if s1 = '/' && s2 = '/' &&
       isDigitChar m1 && isDigitChar m2 && isDigitChar d1 && isDigitChar d2 &&
       isDigitChar y1 && isDigitChar y2 && isDigitChar y3 && isDigitChar y4 then
      if 1 ≤ 10 * digitVal m1 + digitVal m2 ∧ 10 * digitVal m1 + digitVal m2 ≤ 12 ∧
          1 ≤ 10 * digitVal d1 + digitVal d2 ∧
          10 * digitVal d1 + digitVal d2 ≤
            monthLen (charsVal [y1, y2, y3, y4]) (10 * digitVal m1 + digitVal m2) ∧
          1000 ≤ charsVal [y1, y2, y3, y4] then
        some ⟨charsVal [y1, y2, y3, y4], 10 * digitVal m1 + digitVal m2,
              10 * digitVal d1 + digitVal d2⟩
      else none
    else none
  | _ => none

/-- `remove_prefix` (src/bofa2ftsru.py:13-16): assert the literal lead text,
then drop it. -/
def removeLead (lead s : Str) : Option Str :=
  if lead.isPrefixOf s then some (s.drop lead.length) else none

def leadBeginning : Str := "Beginning balance as of ".data

def leadEnding : Str := "Ending balance as of ".data

/- The CSV reader: Python's `csv.reader` over `f.readlines()` (default
dialect: delimiter ',', quote '"', doubled quotes, non-strict).  Modelled as
one character-level state machine over the whole file text, which is what the
line-by-line reader amounts to: a record ends at a newline outside quotes, a
newline inside quotes is field text, a blank line is the empty record `[]`.
The two lenient corners (text after `\r` before a newline, and an unfinished
record at end of input) never arise for the texts considered here, because
`data_to_str` always ends each record with `\n` and balances its quotes. -/

inductive CsvMode
  | startRecord
  | startField
  | inField
  | inQuoted
  | quoteInQuoted
  | eatCrnl
deriving DecidableEq, Repr

structure CsvState where
  mode : CsvMode
  field : Str
  row : List Str
  rows : List (List Str)
deriving DecidableEq, Repr

/-- Save the pending field into the pending row. -/
def CsvState.pushField (st : CsvState) : CsvState :=
  { st with field := [], row := st.row ++ [st.field] }

/-- Save the pending field and emit the pending row, continuing in mode `m`. -/
def CsvState.endRec (st : CsvState) (m : CsvMode) : CsvState :=
  { mode := m, field := [], row := [], rows := st.rows ++ [st.row ++ [st.field]] }

def csvStep (st : CsvState) (c : Char) : CsvState :=
  match st.mode with
  | .startRecord =>
    if c = '\n' then { st with rows := st.rows ++ [[]] }
    else if c = '\r' then { st with mode := .eatCrnl, rows := st.rows ++ [[]] }
    else if c = '"' then { st with mode := .inQuoted }
    else if c = ',' then { st.pushField with mode := .startField }
    else { st with mode := .inField, field := st.field ++ [c] }
  | .startField =>
    if c = '\n' then st.endRec .startRecord
    else if c = '\r' then st.endRec .eatCrnl
    else if c = '"' then { st with mode := .inQuoted }
    else if c = ',' then { st.pushField with mode := .startField }
    else { st with mode := .inField, field := st.field ++ [c] }
  | .inField =>
    if c = '\n' then st.endRec .startRecord
    else if c = '\r' then st.endRec .eatCrnl
    else if c = ',' then { st.pushField with mode := .startField }
    else { st with field := st.field ++ [c] }
  | .inQuoted =>
    if c = '"' then { st with mode := .quoteInQuoted }
    else { st with field := st.field ++ [c] }
  | .quoteInQuoted =>
    if c = '"' then { st with mode := .inQuoted, field := st.field ++ ['"'] }
    else if c = ',' then { st.pushField with mode := .startField }
    else if c = '\n' then st.endRec .startRecord
    else if c = '\r' then st.endRec .eatCrnl
    else { st with mode := .inField, field := st.field ++ [c] }
  | .eatCrnl =>
    if c = '\n' then { st with mode := .startRecord }
    else if c = '\r' then st
    else if c = '"' then { st with mode := .inQuoted }
    else if c = ',' then { st.pushField with mode := .startField }
    else { st with mode := .inField, field := st.field ++ [c] }

def csvInit : CsvState := ⟨.startRecord, [], [], []⟩

def csv_parse (s : Str) : List (List Str) :=
  let st := s.foldl csvStep csvInit
  match st.mode with
  | .startRecord => st.rows
  | .eatCrnl => st.rows
  | _ => st.rows ++ [st.row ++ [st.field]]

/-- One serialized transaction row (src/bofa2ftsru.py:157). -/
def recordLine (r : Record) : Str :=
  to_date r.date ++ ',' :: '"' :: r.description ++ '"' :: ',' ::
    '"' :: moneyChars r.amount ++ '"' :: ',' ::
    '"' :: moneyChars r.running_balance ++ ['"', '\n']

/-- `data_to_str` (src/bofa2ftsru.py:146-158). -/
def data_to_str (data : Data) : Str :=
  "Description,,Summary Amt.\n".data ++
  leadBeginning ++ to_date data.beginning_date ++ ",,\"".data ++
    moneyChars data.beginning_balance ++ "\"\n".data ++
  "Total credits,,\"".data ++ moneyChars data.total_credits ++ "\"\n".data ++
  "Total debits,,\"".data ++ moneyChars data.total_debits ++ "\"\n".data ++
  leadEnding ++ to_date data.ending_date ++ ",,\"".data ++
    moneyChars data.ending_balance ++ "\"\n".data ++
  "\n".data ++
  "Date,Description,Amount,Running Bal.\n".data ++
  to_date data.beginning_date ++ ",".data ++ leadBeginning ++
    to_date data.beginning_date ++ ",,\"".data ++
    moneyChars data.beginning_balance ++ "\"\n".data ++
  (data.records.map recordLine).flatten

/-- `if p then k else none`: one failable assert of the parser. -/
def ensure (p : Prop) [Decidable p] {α : Type} (k : Option α) : Option α :=
  if p then k else none

/-- Rows 2 and 5: `[<lead text> <date>, '', <money>]`
(src/bofa2ftsru.py:94-99). -/
def parseSummaryMoneyRow (lead : Str) (row : List Str) : Option (Date × Int) :=
  match row with
  | [c1, c2, c3] =>
    (removeLead lead c1).bind fun s1 =>
    (parser_date s1).bind fun d =>
    ensure (c2 = [])
    ((parser_money c3).bind fun v =>
    some (d, v))
  | _ => none

/-- Rows 3 and 4: `[<label>, '', <money>]` (src/bofa2ftsru.py:96-97). -/
def parseLabelMoneyRow (label : Str) (row : List Str) : Option Int :=
  match row with
  | [c1, c2, c3] => ensure (c1 = label) (ensure (c2 = []) (parser_money c3))
  | _ => none

/-- Row 8, the opening ledger row: `[<date>, <lead text> <date>, '', <money>]`
(src/bofa2ftsru.py:105-107). -/
def parseOpeningRow (row : List Str) : Option (Date × Date × Int) :=
  match row with
  | [c1, c2, c3, c4] =>
    (parser_date c1).bind fun d0 =>
    (removeLead leadBeginning c2).bind fun s2 =>
    (parser_date s2).bind fun d1 =>
    ensure (c3 = [])
    ((parser_money c4).bind fun b0 =>
    some (d0, d1, b0))
  | _ => none

/-- A transaction row (src/bofa2ftsru.py:123-132): date, free text, money,
money; `balance_before` is derived. -/
def parseRecordRow (row : List Str) : Option Record :=
  match row with
  | [c1, c2, c3, c4] =>
    (parser_date c1).bind fun d =>
    (parser_money c3).bind fun amt =>
    (parser_money c4).bind fun rb =>
    some { date := d, description := c2, balance_before := rb - amt,
           amount := amt, running_balance := rb }
  | _ => none

def parseRecordRows : List (List Str) → Option (List Record)
  | [] => some []
  | row :: rest =>
    (parseRecordRow row).bind fun r =>
    (parseRecordRows rest).bind fun rs =>
    some (r :: rs)

/-- `parse_file` (src/bofa2ftsru.py:87-139) on the raw file text: tokenize
with the CSV reader, consume the fixed schema, build the statement, validate
it, and assert that re-serializing reproduces the input byte for byte. -/
def parse_file (raw : Str) : Option Data :=
  match csv_parse raw with
  | row1 :: row2 :: row3 :: row4 :: row5 :: row6 :: row7 :: row8 :: rest =>
    ensure (row1 = ["Description".data, [], "Summary Amt.".data])
    ((parseSummaryMoneyRow leadBeginning row2).bind fun p1 =>
    (parseLabelMoneyRow "Total credits".data row3).bind fun tc =>
    (parseLabelMoneyRow "Total debits".data row4).bind fun td =>
    (parseSummaryMoneyRow leadEnding row5).bind fun p5 =>
    ensure (row6 = [])
    (ensure (row7 = ["Date".data, "Description".data, "Amount".data,
                     "Running Bal.".data])
    ((parseOpeningRow row8).bind fun p8 =>
    ensure (p1.1 = p8.1 ∧ p1.1 = p8.2.1)
    (ensure (p1.2 = p8.2.2)
    ((parseRecordRows rest).bind fun records =>
    let result : Data :=
      { beginning_date := p1.1, beginning_balance := p1.2,
        total_credits := tc, total_debits := td,
        ending_date := p5.1, ending_balance := p5.2, records := records }
    ensure (validate result)
    (ensure (raw = data_to_str result)
    (some result)))))))
  | _ => none

/-- A statement that is valid in the sense of §3 but whose description holds a
double quote, which `data_to_str` does not escape. -/
def exQ : Data :=
  { beginning_date := ⟨2020, 1, 1⟩, beginning_balance := 0,
    total_credits := 100, total_debits := 0,
    ending_date := ⟨2020, 1, 31⟩, ending_balance := 100,
    records := [{ date := ⟨2020, 1, 2⟩, description := ['"'], balance_before := 0,
                  amount := 100, running_balance := 100 }] }

/-- The value `merge_data exADup exBDup` computes. -/
def exMDup : Data :=
  { beginning_date := ⟨2021, 1, 1⟩, beginning_balance := 0,
    total_credits := 180, total_debits := 0,
    ending_date := ⟨2021, 3, 5⟩, ending_balance := 180,
    records := [exS1, exS2, exS3, exS4] }

/-- The acceptance set of the money regex, written out as the spec words it
(without the quoting): an optional leading minus, an integer part with no
leading zero unless it is exactly "0", a decimal point, exactly two
fractional digits — together with the exact decimal value in cents. -/
def MoneyShape (s : Str) (v : Int) : Prop :=
  ∃ (neg : Bool) (ip : Str) (d1 d2 : Char),
    s = (if neg then ['-'] else []) ++ ip ++ '.' :: [d1, d2] ∧
    intPartOk ip = true ∧ isDigitChar d1 = true ∧ isDigitChar d2 = true ∧
    v = (if neg then (-1 : Int) else 1) *
      ((charsVal ip * 100 + (10 * digitVal d1 + digitVal d2) : Nat) : Int)

/-- Characters that pass through the CSV reader unchanged in an unquoted
field. -/
def plainChar (c : Char) : Bool :=
  !(c = ',' || c = '"' || c = '\n' || c = '\r')

/-- Characters that pass through the CSV reader unchanged inside a quoted
field. -/
def qChar (c : Char) : Bool := !(c = '"')

/- ------------------------------------------------------------------
Order lemmas for `Date` (lexicographic comparison, as Python compares
`datetime.date` values). -/

theorem Date.lt_def {a b : Date} :
    a < b ↔ (a.year < b.year ∨
      (a.year = b.year ∧ (a.month < b.month ∨ (a.month = b.month ∧ a.day < b.day)))) :=
  Iff.rfl

theorem Date.le_def {a b : Date} : a ≤ b ↔ (a < b ∨ a = b) := Iff.rfl

theorem Date.lt_mk {x1 x2 x3 y1 y2 y3 : Nat} :
    Date.mk x1 x2 x3 < Date.mk y1 y2 y3 ↔
      (x1 < y1 ∨ (x1 = y1 ∧ (x2 < y2 ∨ (x2 = y2 ∧ x3 < y3)))) :=
  Iff.rfl

theorem Date.not_le {a b : Date} : ¬ a ≤ b ↔ b < a := by
  obtain ⟨x1, x2, x3⟩ := a
  obtain ⟨y1, y2, y3⟩ := b
  simp only [Date.le_def, Date.lt_mk, Date.mk.injEq]
  omega

theorem Date.not_lt {a b : Date} : ¬ a < b ↔ b ≤ a := by
  obtain ⟨x1, x2, x3⟩ := a
  obtain ⟨y1, y2, y3⟩ := b
  simp only [Date.le_def, Date.lt_mk, Date.mk.injEq]
  omega

theorem Date.lt_trans {a b c : Date} (h1 : a < b) (h2 : b < c) : a < c := by
  obtain ⟨x1, x2, x3⟩ := a
  obtain ⟨y1, y2, y3⟩ := b
  obtain ⟨z1, z2, z3⟩ := c
  simp only [Date.lt_mk] at *
  omega

theorem Date.le_trans {a b c : Date} (h1 : a ≤ b) (h2 : b ≤ c) : a ≤ c := by
  obtain ⟨x1, x2, x3⟩ := a
  obtain ⟨y1, y2, y3⟩ := b
  obtain ⟨z1, z2, z3⟩ := c
  simp only [Date.le_def, Date.lt_mk, Date.mk.injEq] at *
  omega

theorem Date.lt_of_le_of_lt {a b c : Date} (h1 : a ≤ b) (h2 : b < c) : a < c := by
  obtain ⟨x1, x2, x3⟩ := a
  obtain ⟨y1, y2, y3⟩ := b
  obtain ⟨z1, z2, z3⟩ := c
  simp only [Date.le_def, Date.lt_mk, Date.mk.injEq] at *
  omega

theorem Date.lt_of_lt_of_le {a b c : Date} (h1 : a < b) (h2 : b ≤ c) : a < c := by
  obtain ⟨x1, x2, x3⟩ := a
  obtain ⟨y1, y2, y3⟩ := b
  obtain ⟨z1, z2, z3⟩ := c
  simp only [Date.le_def, Date.lt_mk, Date.mk.injEq] at *
  omega

theorem Date.lt_irrefl (a : Date) : ¬ a < a := by
  obtain ⟨x1, x2, x3⟩ := a
  simp only [Date.lt_mk]
  omega

theorem Date.le_of_lt {a b : Date} (h : a < b) : a ≤ b := Or.inl h

theorem Date.le_total (a b : Date) : a ≤ b ∨ b ≤ a := by
  obtain ⟨x1, x2, x3⟩ := a
  obtain ⟨y1, y2, y3⟩ := b
  simp only [Date.le_def, Date.lt_mk, Date.mk.injEq]
  omega

theorem Date.year_mono {a b : Date} (h : a ≤ b) : a.year ≤ b.year := by
  obtain ⟨x1, x2, x3⟩ := a
  obtain ⟨y1, y2, y3⟩ := b
  simp only [Date.le_def, Date.lt_mk, Date.mk.injEq] at h
  show x1 ≤ y1
  omega

theorem Date.decide_lt_eq_not_ble (x y : Date) :
    decide (x < y) = ! decide (y ≤ x) := by
  by_cases h : y ≤ x
  · simp [h, Date.not_lt.mpr h]
  · simp [h, Date.not_le.mp h]

/- ------------------------------------------------------------------
General helper lemmas. -/

theorem headI_of_head? {α : Type} [Inhabited α] {l : List α} {x : α}
    (h : l.head? = some x) : l.headI = x := by
  cases l with
  | nil => simp at h
  | cons a t => simp_all

theorem getLastI_of_getLast? {α : Type} [Inhabited α] {l : List α} {x : α}
    (h : l.getLast? = some x) : l.getLastI = x := by
  rw [List.getLastI_eq_getLast?, h]

theorem chain'_pairwise {α : Type} {R : α → α → Prop}
    (tr : ∀ a b c, R a b → R b c → R a c) {l : List α}
    (h : List.Chain' R l) : l.Pairwise R := by
  haveI : IsTrans α R := ⟨fun a b c => tr a b c⟩
  exact List.chain'_iff_pairwise.mp h

theorem total_credits_records {a b : Data} (h : a.records = b.records) :
    total_credits a = total_credits b := by
  unfold total_credits
  rw [h]

theorem total_debits_records {a b : Data} (h : a.records = b.records) :
    total_debits a = total_debits b := by
  unfold total_debits
  rw [h]

/-- What a successful `normalize_data` returns. -/
theorem normalize_data_spec {d m : Data} (hm : normalize_data d = some m) :
    m.records = d.records ∧ m.beginning_date = d.beginning_date ∧
    m.ending_date = d.ending_date ∧
    m.beginning_balance = d.records.headI.balance_before ∧
    m.ending_balance = d.records.getLastI.running_balance ∧
    m.total_credits = total_credits d ∧ m.total_debits = total_debits d ∧
    d.records ≠ [] := by
  unfold normalize_data at hm
  cases hhead : d.records.head? with
  | none => simp [hhead] at hm
  | some first =>
    cases hlast : d.records.getLast? with
    | none => simp [hhead, hlast] at hm
    | some last =>
      rw [hhead, hlast] at hm
      have hne : d.records ≠ [] := by
        intro h0
        rw [h0] at hhead
        simp at hhead
      have hm2 := Option.some.inj hm
      subst hm2
      refine ⟨rfl, rfl, rfl, ?_, ?_, rfl, rfl, hne⟩
      · show first.balance_before = d.records.headI.balance_before
        rw [headI_of_head? hhead]
      · show last.running_balance = d.records.getLastI.running_balance
        rw [getLastI_of_getLast? hlast]

/-- A successful `normalize_data` exists exactly when the record set is
non-empty. -/
theorem normalize_data_isSome {d : Data} (h : d.records ≠ []) :
    ∃ m, normalize_data d = some m := by
  unfold normalize_data
  cases hhead : d.records.head? with
  | none => exact absurd (List.head?_isSome.mpr h) (by rw [hhead]; simp)
  | some first =>
    cases hlast : d.records.getLast? with
    | none => exact absurd (List.getLast?_isSome.mpr h) (by rw [hlast]; simp)
    | some last => exact ⟨_, rfl⟩

/-- What a successful `merge_data` returns. -/
theorem merge_data_spec {a b m : Data} (hm : merge_data a b = some m) :
    m.records =
      (a.records.filter fun e => decide (e.date < b.beginning_date)) ++ b.records ∧
    m.beginning_date = a.beginning_date ∧
    m.ending_date = b.ending_date ∧
    m.beginning_balance = m.records.headI.balance_before ∧
    m.ending_balance = m.records.getLastI.running_balance ∧
    m.total_credits = total_credits m ∧
    m.total_debits = total_debits m ∧
    m.records ≠ [] ∧
    (shared_records a b ≠ [] →
      b.records.take (shared_records a b).length = shared_records a b) := by
  unfold merge_data at hm
  simp only at hm
  by_cases hcond : shared_records a b ≠ [] ∧
      shared_records a b ≠ b.records.take (shared_records a b).length
  · rw [if_pos hcond] at hm
    exact absurd hm (by simp)
  · rw [if_neg hcond] at hm
    obtain ⟨hrec, hbd, hed, hbb, heb, htc, htd, hne⟩ := normalize_data_spec hm
    simp only at hrec hbd hed hbb heb htc htd hne
    have hmatch : shared_records a b ≠ [] →
        b.records.take (shared_records a b).length = shared_records a b := by
      intro h1
      by_cases h2 : shared_records a b = b.records.take (shared_records a b).length
      · exact h2.symm
      · exact absurd ⟨h1, h2⟩ hcond
    refine ⟨hrec, hbd, hed, ?_, ?_, ?_, ?_, ?_, hmatch⟩
    · rw [hbb, hrec]
    · rw [heb, hrec]
    · rw [htc]
      exact (total_credits_records hrec).symm
    · rw [htd]
      exact (total_debits_records hrec).symm
    · rw [hrec]
      exact hne

/-- Sign split of a record list's amounts: credits (amounts `≥ 0`) plus
debits (amounts `< 0`) telescope to the plain sum. -/
theorem credits_add_debits (l : List Record) :
    ((l.filter fun e => decide (0 ≤ e.amount)).map fun e => e.amount).sum +
      ((l.filter fun e => decide (e.amount < 0)).map fun e => e.amount).sum =
      (l.map fun e => e.amount).sum := by
  induction l with
  | nil => simp
  | cons a t ih =>
    by_cases h : 0 ≤ a.amount
    · have h2 : ¬ a.amount < 0 := by omega
      simp [List.filter_cons, h, h2]
      omega
    · have h2 : a.amount < 0 := by omega
      simp [List.filter_cons, h, h2]
      omega

/-- Telescoping along the balance chain: for a non-empty record list whose
consecutive balances agree and whose rows balance individually, the opening
balance plus the summed amounts is the closing balance. -/
theorem chain_balance_sum (l : List Record) (hne : l ≠ [])
    (hch : List.Chain' chainOk l)
    (hrow : ∀ e ∈ l, e.balance_before + e.amount = e.running_balance) :
    l.headI.balance_before + (l.map fun e => e.amount).sum =
      l.getLastI.running_balance := by
  induction l with
  | nil => exact absurd rfl hne
  | cons a t ih =>
    cases t with
    | nil =>
      simp only [List.headI, List.getLastI, List.map_cons, List.map_nil,
        List.sum_cons, List.sum_nil]
      have := hrow a (by simp)
      omega
    | cons b t2 =>
      have hch2 : List.Chain' chainOk (b :: t2) := hch.tail
      have hlink : chainOk a b := by
        rcases List.chain'_cons.mp hch with ⟨h1, _⟩
        exact h1
      have hrow2 : ∀ e ∈ b :: t2, e.balance_before + e.amount = e.running_balance :=
        fun e he => hrow e (by simp [he])
      have ih2 := ih (by simp) hch2 hrow2
      have ha := hrow a (by simp)
      have hgl : (a :: b :: t2).getLastI = (b :: t2).getLastI := by
        simp [List.getLastI_eq_getLast?, List.getLast?_cons_cons]
      rw [hgl]
      simp only [List.headI, List.map_cons, List.sum_cons] at ih2 ⊢
      rcases hlink with ⟨_, hbal⟩
      omega

/- ------------------------------------------------------------------
Claim theorems. -/

/-- C9.  Sign-partition of totals: `total_credits` (amounts `>= 0`, zero
counted as a credit) plus `total_debits` (amounts `< 0`) equals the sum of
all record amounts — every amount is counted in exactly one of the two
totals. -/
theorem sign_partition_of_totals (data : Data) :
    total_credits data + total_debits data =
      (data.records.map fun e => e.amount).sum :=
  credits_add_debits data.records

/-- C10.  A one-element statement list folds to that statement unchanged:
`reduce(merge_data, [d])` returns `d` itself without ever calling
`merge_data`, so every field is untouched. -/
theorem single_statement_merge_identity (d : Data) : merge_all [d] = some d := rfl

/-- C2.  With a non-empty overlap window, the merge can only succeed when
the first `len(shared_a)` records of `b` are exactly `shared_a`; any
mismatch there is fatal (`merge_data` returns `none`). -/
theorem merge_rejects_conflicting_overlap (a b : Data)
    (hne : shared_records a b ≠ []) :
    (∀ m, merge_data a b = some m →
      b.records.take (shared_records a b).length = shared_records a b) ∧
    (b.records.take (shared_records a b).length ≠ shared_records a b →
      merge_data a b = none) := by
  constructor
  · intro m hm
    exact (merge_data_spec hm).2.2.2.2.2.2.2.2 hne
  · intro hdiff
    unfold merge_data
    simp only
    rw [if_pos ⟨hne, fun h => hdiff h.symm⟩]

/-- Witness for C2 at the concrete statements `exA`, `exB`. -/
theorem merge_rejects_conflicting_overlap_witness :
    (∀ m, merge_data exA exB = some m →
      exB.records.take (shared_records exA exB).length = shared_records exA exB) ∧
    (exB.records.take (shared_records exA exB).length ≠ shared_records exA exB →
      merge_data exA exB = none) :=
  merge_rejects_conflicting_overlap exA exB (by decide)

/-- C3.  A successful merge yields exactly: `a`'s records strictly before
`b.beginning_date` followed by all of `b`'s records; the ending date becomes
`b`'s; and all four summary fields are recomputed from the merged record set
(opening balance from the first record, closing balance from the last,
totals by summation) rather than copied from `a` or `b`. -/
theorem merge_result_definition (a b m : Data) (hm : merge_data a b = some m) :
    m.records =
      (a.records.filter fun e => decide (e.date < b.beginning_date)) ++ b.records ∧
    m.ending_date = b.ending_date ∧
    m.beginning_balance = m.records.headI.balance_before ∧
    m.ending_balance = m.records.getLastI.running_balance ∧
    m.total_credits = total_credits m ∧
    m.total_debits = total_debits m := by
  obtain ⟨h1, _, h3, h4, h5, h6, h7, _, _⟩ := merge_data_spec hm
  exact ⟨h1, h3, h4, h5, h6, h7⟩

/-- Witness for C3 at the concrete statements `exA`, `exB`, whose merge is
`exM`. -/
theorem merge_result_definition_witness :
    exM.records =
      (exA.records.filter fun e => decide (e.date < exB.beginning_date)) ++
        exB.records ∧
    exM.ending_date = exB.ending_date ∧
    exM.beginning_balance = exM.records.headI.balance_before ∧
    exM.ending_balance = exM.records.getLastI.running_balance ∧
    exM.total_credits = total_credits exM ∧
    exM.total_debits = total_debits exM :=
  merge_result_definition exA exB exM (by decide)

/-- C5.  Duplicate beginning dates are fatal; otherwise the statements are
stable-sorted ascending by beginning date, and the pipeline only proceeds
when every adjacent sorted pair strictly increases in both beginning and
ending date (the pairwise `test` reduction). -/
theorem ordering_and_duplicate_rejection (l : List Data) :
    (¬ (l.map fun d => d.beginning_date).Nodup → sort_and_check l = none) ∧
    (¬ List.Chain' orderedPair (l.mergeSort dateble) → sort_and_check l = none) ∧
    (∀ s, sort_and_check l = some s →
      s = l.mergeSort dateble ∧ (l.map fun d => d.beginning_date).Nodup ∧
        List.Chain' orderedPair s) := by
  unfold sort_and_check sort_data_list
  by_cases hdup : (l.map fun d => d.beginning_date).Nodup
  · rw [if_pos hdup]
    dsimp only
    by_cases hch : validate_data_list (l.mergeSort dateble)
    · rw [if_pos hch]
      refine ⟨fun h => absurd hdup h, fun h => absurd hch.2 h, ?_⟩
      intro s hs
      cases hs
      exact ⟨rfl, hdup, hch.2⟩
    · rw [if_neg hch]
      exact ⟨fun _ => rfl, fun _ => rfl, fun s hs => absurd hs (by simp)⟩
  · rw [if_neg hdup]
    exact ⟨fun _ => rfl, fun _ => rfl, fun s hs => absurd hs (by simp)⟩

/-- The two date filters of `merge_data` split `a`'s records exactly. -/
theorem date_filter_complement (bd : Date) (l : List Record) :
    (l.filter fun e => decide (e.date < bd)).length +
      (l.filter fun e => decide (bd ≤ e.date)).length = l.length := by
  have h1 : (l.filter fun e => decide (e.date < bd)) =
      l.filter fun e => ! decide (bd ≤ e.date) :=
    List.filter_congr fun e _ => Date.decide_lt_eq_not_ble e.date bd
  rw [h1]
  have h2 := List.length_eq_length_filter_add (l := l) fun e => decide (bd ≤ e.date)
  omega

/-- C7 (amended).  Every successful merge satisfies the length law: the
merged record set has length `len(a.records) + len(b.records) -
overlap_length`, unconditionally (the two date filters split `a`'s records
regardless).  And when each input's record dates are pairwise distinct and
all of `b`'s records are dated on or after `b.beginning_date` (as §3
validity guarantees), the merged dates are pairwise distinct too.  Without
those provisos a statement may legitimately carry two records on one date,
and the merge preserves the duplication — see the counterexample. -/
theorem merge_length_law (a b m : Data) (hm : merge_data a b = some m) :
    m.records.length =
      a.records.length + b.records.length - (shared_records a b).length ∧
    ((a.records.map fun e => e.date).Nodup →
      (b.records.map fun e => e.date).Nodup →
      (∀ e ∈ b.records, b.beginning_date ≤ e.date) →
      (m.records.map fun e => e.date).Nodup) := by
  obtain ⟨hrec, -, -, -, -, -, -, -, -⟩ := merge_data_spec hm
  have hsplit := date_filter_complement b.beginning_date a.records
  have hlen : (shared_records a b).length ≤ a.records.length := by
    unfold shared_records
    omega
  constructor
  · rw [hrec, List.length_append]
    unfold shared_records
    unfold shared_records at hlen
    omega
  · intro hna hnb hble
    rw [hrec, List.map_append]
    rw [List.nodup_append]
    refine ⟨?_, hnb, ?_⟩
    · exact List.Nodup.sublist (List.Sublist.map _ (List.filter_sublist _)) hna
    · intro x hx hx2
      obtain ⟨e, he, hex⟩ := List.mem_map.mp hx
      obtain ⟨e', he', hex'⟩ := List.mem_map.mp hx2
      have h1 : e.date < b.beginning_date := by
        have := List.of_mem_filter he
        simpa using this
      have h2 : b.beginning_date ≤ e'.date := hble e' he'
      have h3 : e.date < e'.date := Date.lt_of_lt_of_le h1 h2
      rw [hex, ← hex'] at h3
      exact Date.lt_irrefl _ h3

/-- Witness for the amended C7 at `exA`, `exB`: their merge succeeds, the
overlap is one record, the merged list has `3 + 2 - 1 = 4` records, and
under the distinctness provisos the merged dates are distinct. -/
theorem merge_length_law_witness :
    exM.records.length =
      exA.records.length + exB.records.length - (shared_records exA exB).length ∧
    ((exA.records.map fun e => e.date).Nodup →
      (exB.records.map fun e => e.date).Nodup →
      (∀ e ∈ exB.records, exB.beginning_date ≤ e.date) →
      (exM.records.map fun e => e.date).Nodup) :=
  merge_length_law exA exB exM (by decide)

/-- Counterexample to C7 as stated: `exADup` carries two records dated
01/02/2021, `exBDup`'s overlapping prefix matches `exADup`'s overlap window
exactly, the merge succeeds and satisfies the length law, yet the merged
record set does contain a duplicated date. -/
theorem merge_length_law_cex :
    exBDup.records.take (shared_records exADup exBDup).length =
      shared_records exADup exBDup ∧
    merge_data exADup exBDup = some exMDup ∧
    exMDup.records.length =
      exADup.records.length + exBDup.records.length -
        (shared_records exADup exBDup).length ∧
    ¬ (exMDup.records.map fun e => e.date).Nodup := by decide

/-- On a list sorted for a predicate that is downward closed along the order,
`filter` coincides with `takeWhile`, and the complementary filter with
`dropWhile`. -/
theorem filter_eq_takeWhile_of_sorted {α : Type} (p : α → Bool) (l : List α)
    (hp : l.Pairwise fun a b => p b = true → p a = true) :
    l.filter p = l.takeWhile p ∧ l.filter (fun x => ! p x) = l.dropWhile p := by
  induction l with
  | nil => simp
  | cons a t ih =>
    rcases List.pairwise_cons.mp hp with ⟨ha, ht⟩
    obtain ⟨ih1, ih2⟩ := ih ht
    by_cases hx : p a = true
    · simp [List.filter_cons, List.takeWhile_cons, List.dropWhile_cons, hx, ih1, ih2]
    · have h1 : t.filter p = [] :=
        List.filter_eq_nil_iff.mpr fun b hb hpb => hx (ha b hb hpb)
      have h2 : t.filter (fun x => ! p x) = t := by
        refine List.filter_eq_self.mpr fun b hb => ?_
        by_cases hpb : p b = true
        · exact absurd (ha b hb hpb) hx
        · simp [hpb]
      simp [List.filter_cons, List.takeWhile_cons, List.dropWhile_cons, hx, h1, h2]

/-- Partition of a key-sorted list by a strictly increasing list of keys that
covers it: concatenating the per-key filters in key order restores the list. -/
theorem join_filter_of_sorted {α : Type} (k : α → Nat) :
    ∀ (ys : List Nat) (l : List α),
      l.Pairwise (fun a b => k a ≤ k b) →
      ys.Pairwise (· < ·) →
      (∀ e ∈ l, k e ∈ ys) →
      (ys.map fun y => l.filter fun e => decide (k e = y)).flatten = l := by
  intro ys
  induction ys with
  | nil =>
    intro l _ _ hmem
    cases l with
    | nil => simp
    | cons e t => exact absurd (hmem e (by simp)) (by simp)
  | cons y ys ih =>
    intro l hl hys hmem
    rcases List.pairwise_cons.mp hys with ⟨hy, hys2⟩
    have hdc : l.Pairwise fun a b =>
        decide (k b = y) = true → decide (k a = y) = true := by
      refine hl.imp_of_mem ?_
      intro a b ha hb hab hpb
      have hkb : k b = y := by simpa using hpb
      have hka := hmem a ha
      simp only [decide_eq_true_eq]
      rcases List.mem_cons.mp hka with h | h
      · exact h
      · have := hy (k a) h
        omega
    obtain ⟨hft, -⟩ :=
      filter_eq_takeWhile_of_sorted (fun e => decide (k e = y)) l hdc
    set p : α → Bool := fun e => decide (k e = y) with hpdef
    have hsplit : l.takeWhile p ++ l.dropWhile p = l :=
      List.takeWhile_append_dropWhile p l
    have htw : ∀ e ∈ l.takeWhile p, k e = y := fun e he => by
      have := List.mem_takeWhile_imp he
      simpa [hpdef] using this
    have hfilter_tw : (l.takeWhile p).filter p = l.takeWhile p :=
      List.filter_eq_self.mpr fun e he => by simpa [hpdef] using htw e he
    have hfilter_dw : (l.dropWhile p).filter p = [] := by
      have hcong := congrArg (List.filter p) hsplit
      rw [List.filter_append, hfilter_tw, hft] at hcong
      have h2 := congrArg List.length hcong
      simp only [List.length_append] at h2
      have h3 : ((l.dropWhile p).filter p).length = 0 := by omega
      exact List.eq_nil_of_length_eq_zero h3
    have hdw_mem : ∀ e ∈ l.dropWhile p, k e ∈ ys := by
      intro e he
      have h1 : ¬ p e = true := by
        intro hpe
        have hmem2 : e ∈ (l.dropWhile p).filter p := List.mem_filter.mpr ⟨he, hpe⟩
        rw [hfilter_dw] at hmem2
        simp at hmem2
      have h2 := hmem e (by rw [← hsplit]; exact List.mem_append_right _ he)
      rcases List.mem_cons.mp h2 with h | h
      · exact absurd (by simpa [hpdef] using h) h1
      · exact h
    have hdw_pair : (l.dropWhile p).Pairwise fun a b => k a ≤ k b :=
      List.Pairwise.sublist (List.dropWhile_sublist p) hl
    have hmap_eq : (ys.map fun y' => l.filter fun e => decide (k e = y')) =
        ys.map fun y' => (l.dropWhile p).filter fun e => decide (k e = y') := by
      refine List.map_congr_left ?_
      intro y' hy'
      conv_lhs => rw [← hsplit]
      rw [List.filter_append]
      have hnil : (l.takeWhile p).filter (fun e => decide (k e = y')) = [] := by
        refine List.filter_eq_nil_iff.mpr fun e he => ?_
        have h1 := htw e he
        have h2 := hy y' hy'
        simp only [decide_eq_true_eq]
        omega
      rw [hnil]
      simp
    calc ((y :: ys).map fun y' => l.filter fun e => decide (k e = y')).flatten
        = l.filter p ++ (ys.map fun y' => l.filter fun e => decide (k e = y')).flatten := by
          simp [hpdef]
      _ = l.takeWhile p ++
            ((ys.map fun y' => (l.dropWhile p).filter fun e => decide (k e = y')).flatten) := by
          rw [hft, hmap_eq]
      _ = l.takeWhile p ++ l.dropWhile p := by
          rw [ih (l.dropWhile p) hdw_pair hys2 hdw_mem]
      _ = l := hsplit

/-- C4.  Partition completeness: for a statement whose records are sorted
non-decreasing by date, each per-year window of `filter_year` holds exactly
the records of that year, and concatenating the per-year record sets over
the distinct record years in ascending order (`years_of`, the model of
`sorted(set(...))` in `convert`) restores the full record sequence with
nothing lost, duplicated or reordered. -/
theorem partition_completeness (data : Data)
    (hs : List.Chain' (fun a b : Record => a.date ≤ b.date) data.records) :
    (∀ y d', filter_year data y = some d' →
      d'.records = data.records.filter fun e => decide (e.date.year = y)) ∧
    ((years_of data).map fun y =>
      data.records.filter fun e => decide (e.date.year = y)).flatten =
      data.records := by
  constructor
  · intro y d' hd'
    obtain ⟨h1, -, -, -, -, -, -, -⟩ := normalize_data_spec hd'
    exact h1
  · have hpair : data.records.Pairwise fun a b => a.date.year ≤ b.date.year := by
      have h1 : data.records.Pairwise fun a b : Record => a.date ≤ b.date :=
        chain'_pairwise (R := fun a b : Record => a.date ≤ b.date)
          (fun a b c h1 h2 => Date.le_trans h1 h2) hs
      exact h1.imp fun h => Date.year_mono h
    have hnd : (years_of data).Nodup := by
      unfold years_of
      exact ((List.mergeSort_perm _ _).nodup_iff).mpr (List.nodup_dedup _)
    have hsorted : (years_of data).Pairwise fun a b => a ≤ b := by
      unfold years_of
      have h2 := @List.sorted_mergeSort Nat (fun a b : Nat => decide (a ≤ b))
        (fun a b c h1 h2 => by
          simp only [decide_eq_true_eq] at *
          omega)
        (fun a b => by
          simp only [Bool.or_eq_true, decide_eq_true_eq]
          omega)
        ((data.records.map fun e => e.date.year).dedup)
      exact h2.imp fun h => by simpa using h
    have hys : (years_of data).Pairwise (· < ·) := by
      have h3 := hsorted.and hnd
      exact h3.imp fun h => by omega
    have hmem : ∀ e ∈ data.records, e.date.year ∈ years_of data := by
      intro e he
      unfold years_of
      refine ((List.mergeSort_perm _ _).mem_iff).mpr ?_
      exact List.mem_dedup.mpr (List.mem_map.mpr ⟨e, he, rfl⟩)
    exact join_filter_of_sorted (fun e => e.date.year) (years_of data)
      data.records hpair hys hmem

/-- Witness for C4 at the merged statement `exM` (records over 2020, one
year). -/
theorem partition_completeness_witness :
    (∀ y d', filter_year exM y = some d' →
      d'.records = exM.records.filter fun e => decide (e.date.year = y)) ∧
    ((years_of exM).map fun y =>
      exM.records.filter fun e => decide (e.date.year = y)).flatten =
      exM.records :=
  partition_completeness exM (by decide)

theorem Date.decide_le_eq_not_blt (x y : Date) :
    decide (x ≤ y) = ! decide (y < x) := by
  rw [Date.decide_lt_eq_not_ble, Bool.not_not]

theorem head?_of_take {α : Type} {n : Nat} {l : List α} {x : α} {t : List α}
    (h : l.take n = x :: t) : l.head? = some x := by
  cases n with
  | zero => simp at h
  | succ n =>
    cases l with
    | nil => simp at h
    | cons a l' =>
      rw [List.take_succ_cons] at h
      rw [List.head?_cons, (List.cons.injEq .. ).mp h |>.1]

/-- C8.  Merging two individually valid statements with strictly increasing
beginning and ending dates and a non-empty, exactly matching overlap yields a
statement that again passes `validate`. -/
theorem merge_preserves_validity (a b : Data)
    (ha : validate a) (hb : validate b)
    (hbd : a.beginning_date < b.beginning_date)
    (hed : a.ending_date < b.ending_date)
    (hne : shared_records a b ≠ [])
    (hsh : b.records.take (shared_records a b).length = shared_records a b) :
    ∃ m, merge_data a b = some m ∧ validate m := by
  obtain ⟨ha1, ha2, ha3, ha4, ha5, ha6, ha7, ha8, ha9, ha10⟩ := ha
  obtain ⟨hb1, hb2, hb3, hb4, hb5, hb6, hb7, hb8, hb9, hb10⟩ := hb
  have hRne : (a.records.filter fun e => decide (e.date < b.beginning_date)) ++
      b.records ≠ [] := by
    intro h0
    exact hb2 (List.append_eq_nil.mp h0).2
  obtain ⟨m, hm⟩ := normalize_data_isSome
    (d := { a with
      records := (a.records.filter fun e => decide (e.date < b.beginning_date)) ++
        b.records,
      ending_date := b.ending_date }) hRne
  have hcond : ¬(shared_records a b ≠ [] ∧
      shared_records a b ≠ b.records.take (shared_records a b).length) :=
    fun h => h.2 hsh.symm
  have hmerge : merge_data a b = some m := by
    unfold merge_data
    simp only
    rw [if_neg hcond]
    exact hm
  obtain ⟨hrec, hmbd, hmed, hmbb, hmeb, hmtc, hmtd, hmne, -⟩ := merge_data_spec hmerge
  -- the split of a's records into the kept part and the overlap window
  have hadates : a.records.Pairwise fun x y : Record => x.date ≤ y.date := by
    have h0 : List.Chain' (fun x y : Record => x.date ≤ y.date) a.records :=
      ha8.imp fun x y h => h.1
    exact chain'_pairwise (R := fun x y : Record => x.date ≤ y.date)
      (fun x y z hx hy => Date.le_trans hx hy) h0
  have hdc : a.records.Pairwise fun x y : Record =>
      decide (y.date < b.beginning_date) = true →
        decide (x.date < b.beginning_date) = true := by
    refine hadates.imp fun hle hy => ?_
    simp only [decide_eq_true_eq] at *
    exact Date.lt_of_le_of_lt hle hy
  obtain ⟨hft, hfd⟩ := filter_eq_takeWhile_of_sorted
    (fun e => decide (e.date < b.beginning_date)) a.records hdc
  have hshared_drop : shared_records a b =
      a.records.dropWhile fun e => decide (e.date < b.beginning_date) := by
    unfold shared_records
    rw [List.filter_congr fun e _ =>
      Date.decide_le_eq_not_blt b.beginning_date e.date]
    exact hfd
  have hsplit2 : (a.records.filter fun e => decide (e.date < b.beginning_date)) ++
      shared_records a b = a.records := by
    rw [hft, hshared_drop]
    exact List.takeWhile_append_dropWhile _ a.records
  have ha8' : List.Chain' chainOk
      ((a.records.filter fun e => decide (e.date < b.beginning_date)) ++
        shared_records a b) := by
    rw [hsplit2]
    exact ha8
  obtain ⟨hchTw, -, hjunction0⟩ := List.chain'_append.mp ha8'
  -- head of b's records is the head of the overlap
  have hheadb : b.records.head? = (shared_records a b).head? := by
    cases hsr : shared_records a b with
    | nil => exact absurd hsr hne
    | cons s0 stail =>
      rw [hsr] at hsh
      rw [head?_of_take hsh, List.head?_cons]
  -- membership facts
  have hmemRange : ∀ e ∈ m.records,
      ¬(e.date < m.beginning_date ∨ m.ending_date < e.date) := by
    intro e he
    rw [hrec] at he
    rw [hmbd, hmed]
    rcases List.mem_append.mp he with h | h
    · obtain ⟨hmem, hdate⟩ := List.mem_filter.mp h
      simp only [decide_eq_true_eq] at hdate
      have h5 := ha5 e hmem
      intro hcontra
      rcases hcontra with h6 | h6
      · exact h5 (Or.inl h6)
      · exact Date.lt_irrefl e.date
          (Date.lt_trans (Date.lt_trans hdate hb1) h6)
    · have h5 := hb5 e h
      intro hcontra
      rcases hcontra with h6 | h6
      · have h7 : b.beginning_date ≤ e.date := Date.not_lt.mp fun hc => h5 (Or.inl hc)
        exact Date.lt_irrefl e.date
          (Date.lt_of_lt_of_le (Date.lt_trans h6 hbd) h7)
      · exact h5 (Or.inr h6)
  have hmemRows : ∀ e ∈ m.records,
      e.balance_before + e.amount = e.running_balance := by
    intro e he
    rw [hrec] at he
    rcases List.mem_append.mp he with h | h
    · exact ha6 e (List.mem_filter.mp h).1
    · exact hb6 e h
  -- the merged chain
  have hchain : List.Chain' chainOk m.records := by
    rw [hrec]
    refine List.chain'_append.mpr ⟨hchTw, hb8, ?_⟩
    intro x hx y hy
    refine hjunction0 x hx y ?_
    rw [← hheadb]
    exact hy
  -- the recomputed summary equation
  have hsum : m.beginning_balance + m.total_credits + m.total_debits =
      m.ending_balance := by
    have htel := chain_balance_sum m.records hmne hchain hmemRows
    have hsplitsum := credits_add_debits m.records
    have htc2 : m.total_credits =
        ((m.records.filter fun e => decide (0 ≤ e.amount)).map
          fun e => e.amount).sum := hmtc
    have htd2 : m.total_debits =
        ((m.records.filter fun e => decide (e.amount < 0)).map
          fun e => e.amount).sum := hmtd
    rw [hmbb, hmeb, htc2, htd2]
    omega
  have hdate_m : m.beginning_date < m.ending_date := by
    rw [hmbd, hmed]
    exact Date.lt_trans hbd hb1
  exact ⟨m, hmerge,
    hdate_m,
    hmne,
    hmtc, hmtd, hmemRange, hmemRows, hmbb.symm, hchain, hmeb.symm, hsum⟩

/-- Witness for C8 at `exA`, `exB`. -/
theorem merge_preserves_validity_witness :
    ∃ m, merge_data exA exB = some m ∧ validate m :=
  merge_preserves_validity exA exB (by decide) (by decide) (by decide)
    (by decide) (by decide) (by decide)

/- ------------------------------------------------------------------
Digit and decimal rendering lemmas. -/

theorem digitChar_toNat {n : Nat} (h : n < 10) : (Nat.digitChar n).toNat = 48 + n := by
  interval_cases n <;> rfl

theorem isDigitChar_digitChar {n : Nat} (h : n < 10) :
    isDigitChar (Nat.digitChar n) = true := by
  interval_cases n <;> rfl

theorem digitVal_digitChar {n : Nat} (h : n < 10) : digitVal (Nat.digitChar n) = n := by
  interval_cases n <;> rfl

theorem digitChar_ne_special {n : Nat} (h : n < 10) :
    plainChar (Nat.digitChar n) = true ∧ qChar (Nat.digitChar n) = true := by
  interval_cases n <;> exact ⟨rfl, rfl⟩

theorem charsVal_append_singleton (l : Str) (c : Char) :
    charsVal (l ++ [c]) = 10 * charsVal l + digitVal c := by
  unfold charsVal
  rw [List.foldl_append]
  rfl

theorem natToCharsAux_acc : ∀ (fuel n : Nat) (acc : Str),
    natToCharsAux fuel n acc = natToCharsAux fuel n [] ++ acc := by
  intro fuel
  induction fuel with
  | zero => intro n acc; rfl
  | succ f ih =>
    intro n acc
    by_cases h : n = 0
    · simp [natToCharsAux, h]
    · show (if n = 0 then acc
          else natToCharsAux f (n / 10) (Nat.digitChar (n % 10) :: acc)) = _
      rw [if_neg h]
      conv_rhs =>
        rw [show natToCharsAux (f + 1) n [] =
          (if n = 0 then ([] : Str)
            else natToCharsAux f (n / 10) (Nat.digitChar (n % 10) :: [])) from rfl]
      rw [if_neg h]
      rw [ih (n / 10) (Nat.digitChar (n % 10) :: acc),
          ih (n / 10) (Nat.digitChar (n % 10) :: [])]
      simp

theorem natToCharsAux_zero : ∀ f : Nat, natToCharsAux f 0 [] = [] := by
  intro f
  cases f with
  | zero => rfl
  | succ f => rfl

theorem natToCharsAux_fuel (n : Nat) : ∀ (f1 f2 : Nat), n ≤ f1 → n ≤ f2 →
    natToCharsAux f1 n [] = natToCharsAux f2 n [] := by
  induction n using Nat.strong_induction_on with
  | _ n ih =>
    intro f1 f2 h1 h2
    by_cases h : n = 0
    · subst h
      rw [natToCharsAux_zero, natToCharsAux_zero]
    · cases f1 with
      | zero => omega
      | succ g1 =>
        cases f2 with
        | zero => omega
        | succ g2 =>
          show (if n = 0 then ([] : Str)
              else natToCharsAux g1 (n / 10) (Nat.digitChar (n % 10) :: [])) = _
          rw [if_neg h]
          conv_rhs =>
            rw [show natToCharsAux (g2 + 1) n [] =
              (if n = 0 then ([] : Str)
                else natToCharsAux g2 (n / 10) (Nat.digitChar (n % 10) :: [])) from rfl]
          rw [if_neg h]
          rw [natToCharsAux_acc g1, natToCharsAux_acc g2]
          rw [ih (n / 10) (by omega) g1 g2 (by omega) (by omega)]

theorem natToChars_zero : natToChars 0 = [] := rfl

theorem natToChars_step {n : Nat} (h : n ≠ 0) :
    natToChars n = natToChars (n / 10) ++ [Nat.digitChar (n % 10)] := by
  unfold natToChars
  cases n with
  | zero => exact absurd rfl h
  | succ k =>
    show (if k + 1 = 0 then ([] : Str)
        else natToCharsAux k ((k + 1) / 10) (Nat.digitChar ((k + 1) % 10) :: [])) = _
    rw [if_neg h]
    rw [natToCharsAux_acc k]
    rw [natToCharsAux_fuel ((k + 1) / 10) k ((k + 1) / 10) (by omega) le_rfl]

theorem charsVal_natToChars (n : Nat) : charsVal (natToChars n) = n := by
  induction n using Nat.strong_induction_on with
  | _ n ih =>
    by_cases h : n = 0
    · subst h; rfl
    · rw [natToChars_step h, charsVal_append_singleton,
        ih (n / 10) (by omega), digitVal_digitChar (by omega)]
      omega

theorem natToChars_digits (n : Nat) : ∀ c ∈ natToChars n, isDigitChar c = true := by
  induction n using Nat.strong_induction_on with
  | _ n ih =>
    by_cases h : n = 0
    · subst h; intro c hc; simp [natToChars_zero] at hc
    · rw [natToChars_step h]
      intro c hc
      rcases List.mem_append.mp hc with h2 | h2
      · exact ih (n / 10) (by omega) c h2
      · rw [List.mem_singleton.mp h2]
        exact isDigitChar_digitChar (by omega)

theorem natToChars_head (n : Nat) (h : n ≠ 0) :
    ∃ c cs, natToChars n = c :: cs ∧ 49 ≤ c.toNat ∧ c.toNat ≤ 57 := by
  induction n using Nat.strong_induction_on with
  | _ n ih =>
    by_cases hsmall : n < 10
    · refine ⟨Nat.digitChar n, [], ?_, ?_, ?_⟩
      · rw [natToChars_step h, show n / 10 = 0 by omega, natToChars_zero,
          Nat.mod_eq_of_lt hsmall]
        rfl
      · rw [digitChar_toNat (by omega)]; omega
      · rw [digitChar_toNat (by omega)]; omega
    · obtain ⟨c, cs, h1, h2, h3⟩ := ih (n / 10) (by omega) (by omega)
      refine ⟨c, cs ++ [Nat.digitChar (n % 10)], ?_, h2, h3⟩
      rw [natToChars_step h, h1]
      rfl

theorem intPartOk_intPartChars (n : Nat) : intPartOk (intPartChars n) = true := by
  by_cases h : n = 0
  · subst h; rfl
  · unfold intPartChars
    rw [if_neg h]
    obtain ⟨c, cs, h1, h2, h3⟩ := natToChars_head n h
    rw [h1]
    show (if c = '0' then decide (cs = [])
        else decide (49 ≤ c.toNat) && decide (c.toNat ≤ 57) && cs.all isDigitChar) = true
    have hc0 : ¬ c = '0' := by
      intro he
      rw [he] at h2
      simp at h2
    rw [if_neg hc0]
    have hall : cs.all isDigitChar = true := by
      refine List.all_eq_true.mpr fun x hx => natToChars_digits n x ?_
      rw [h1]
      exact List.mem_cons_of_mem c hx
    simp [h2, h3, hall]

theorem charsVal_intPartChars (n : Nat) : charsVal (intPartChars n) = n := by
  by_cases h : n = 0
  · subst h; rfl
  · unfold intPartChars
    rw [if_neg h]
    exact charsVal_natToChars n

theorem intPartChars_digits (n : Nat) : ∀ c ∈ intPartChars n, isDigitChar c = true := by
  by_cases h : n = 0
  · subst h
    intro c hc
    rw [List.mem_singleton.mp hc]
    rfl
  · unfold intPartChars
    rw [if_neg h]
    exact natToChars_digits n

theorem moneyChars_shape (v : Int) : MoneyShape (moneyChars v) v := by
  refine ⟨decide (v < 0), intPartChars (v.natAbs / 100),
    Nat.digitChar (v.natAbs % 100 / 10 % 10), Nat.digitChar (v.natAbs % 100 % 10),
    ?_, intPartOk_intPartChars _, isDigitChar_digitChar (by omega),
    isDigitChar_digitChar (by omega), ?_⟩
  · unfold moneyChars pad2
    by_cases h : v < 0
    · rw [if_pos h, if_pos (decide_eq_true h)]
    · rw [if_neg h, if_neg (by simpa using h)]
  · rw [digitVal_digitChar (by omega), digitVal_digitChar (by omega),
      charsVal_intPartChars]
    by_cases h : v < 0
    · rw [if_pos (decide_eq_true h)]
      have : (v.natAbs : Int) = -v := by omega
      omega
    · rw [if_neg (by simpa using h)]
      have : (v.natAbs : Int) = v := by omega
      omega

theorem parseUnsignedMoney_eq_some {s : Str} {n : Nat} :
    parseUnsignedMoney s = some n ↔
      ∃ ip d1 d2, s = ip ++ '.' :: [d1, d2] ∧ intPartOk ip = true ∧
        isDigitChar d1 = true ∧ isDigitChar d2 = true ∧
        n = charsVal ip * 100 + (10 * digitVal d1 + digitVal d2) := by
  constructor
  · intro h
    unfold parseUnsignedMoney at h
    rcases hrev : s.reverse with _ | ⟨d2, _ | ⟨d1, _ | ⟨dot, ipRev⟩⟩⟩ <;>
      rw [hrev] at h <;> dsimp only at h
    · simp at h
    · simp at h
    · simp at h
    by_cases hcond : dot = '.' ∧ isDigitChar d1 = true ∧ isDigitChar d2 = true ∧
        intPartOk ipRev.reverse = true
    · rw [if_pos hcond] at h
      obtain ⟨hdot, h1, h2, h3⟩ := hcond
      refine ⟨ipRev.reverse, d1, d2, ?_, h3, h1, h2, ?_⟩
      · have hs : s = (d2 :: d1 :: dot :: ipRev).reverse := by
          rw [← hrev, List.reverse_reverse]
        rw [hs, hdot]
        simp
      · exact (Option.some.inj h).symm
    · rw [if_neg hcond] at h
      exact absurd h (by simp)
  · rintro ⟨ip, d1, d2, hs, h1, h2, h3, hn⟩
    subst hs
    unfold parseUnsignedMoney
    rw [show (ip ++ '.' :: [d1, d2]).reverse = d2 :: d1 :: '.' :: ip.reverse by simp]
    dsimp only
    rw [if_pos ⟨rfl, h2, h3, by rw [List.reverse_reverse]; exact h1⟩]
    rw [List.reverse_reverse, hn]

theorem intPartOk_head {c : Char} {cs : Str} (h : intPartOk (c :: cs) = true) :
    48 ≤ c.toNat ∧ c.toNat ≤ 57 := by
  by_cases h0 : c = '0'
  · subst h0
    exact ⟨by decide, by decide⟩
  · unfold intPartOk at h
    dsimp only at h
    rw [if_neg h0] at h
    simp only [Bool.and_eq_true, decide_eq_true_eq] at h
    omega

/-- The regex body accepts exactly the unquoted canonical money strings,
with the exact value. -/
theorem parser_money_body_shape_iff (s : Str) (v : Int) :
    parser_money_body s = some v ↔ MoneyShape s v := by
  constructor
  · intro h
    unfold parser_money_body at h
    cases s with
    | nil => simp at h
    | cons c rest =>
      dsimp only at h
      by_cases hneg : c = '-'
      · rw [if_pos hneg] at h
        rcases hu : parseUnsignedMoney rest with - | n <;> rw [hu] at h
        · simp at h
        · obtain ⟨ip, d1, d2, hs, h1, h2, h3, hn⟩ :=
            parseUnsignedMoney_eq_some.mp hu
          refine ⟨true, ip, d1, d2, ?_, h1, h2, h3, ?_⟩
          · rw [hneg, hs]; rfl
          · have hv : v = -(n : Int) := by
              simpa using h.symm
            rw [hv, hn]
            simp
      · rw [if_neg hneg] at h
        rcases hu : parseUnsignedMoney (c :: rest) with - | n <;> rw [hu] at h
        · simp at h
        · obtain ⟨ip, d1, d2, hs, h1, h2, h3, hn⟩ :=
            parseUnsignedMoney_eq_some.mp hu
          refine ⟨false, ip, d1, d2, by rw [hs]; rfl, h1, h2, h3, ?_⟩
          have hv : v = (n : Int) := by simpa using h.symm
          rw [hv, hn]
          simp
  · rintro ⟨neg, ip, d1, d2, hs, h1, h2, h3, hv⟩
    have hip_ne : ip ≠ [] := by
      intro h0
      rw [h0] at h1
      exact absurd h1 (by decide)
    obtain ⟨c0, cs0, hc0⟩ : ∃ c0 cs0, ip = c0 :: cs0 := by
      cases ip with
      | nil => exact absurd rfl hip_ne
      | cons x xs => exact ⟨x, xs, rfl⟩
    have hc0_range := intPartOk_head (hc0 ▸ h1)
    have hc0_ne_minus : c0 ≠ '-' := by
      intro h0
      rw [h0] at hc0_range
      simp at hc0_range
    have hun : parseUnsignedMoney (ip ++ '.' :: [d1, d2]) =
        some (charsVal ip * 100 + (10 * digitVal d1 + digitVal d2)) :=
      parseUnsignedMoney_eq_some.mpr ⟨ip, d1, d2, rfl, h1, h2, h3, rfl⟩
    cases neg with
    | true =>
      rw [if_pos rfl] at hs
      rw [hs]
      show parser_money_body ('-' :: (ip ++ '.' :: [d1, d2])) = some v
      unfold parser_money_body
      dsimp only
      rw [if_pos rfl, hun, hv]
      simp
    | false =>
      rw [if_neg (by simp)] at hs
      rw [show (([] : Str)) ++ ip ++ '.' :: [d1, d2] =
        ip ++ '.' :: [d1, d2] from rfl] at hs
      rw [hs, hc0]
      show parser_money_body (c0 :: (cs0 ++ '.' :: [d1, d2])) = some v
      unfold parser_money_body
      dsimp only
      rw [if_neg hc0_ne_minus]
      rw [show c0 :: (cs0 ++ '.' :: [d1, d2]) = ip ++ '.' :: [d1, d2] by
        rw [hc0]; rfl]
      rw [hun, hv]
      simp

/-- A string of `MoneyShape` ends in a fractional digit, never in a
newline. -/
theorem MoneyShape_getLast {s : Str} {v : Int} (h : MoneyShape s v) :
    s.getLast? ≠ some '\n' := by
  obtain ⟨neg, ip, d1, d2, hs, -, -, h3, -⟩ := h
  have hd2 : d2 ≠ '\n' := by
    intro h0
    rw [h0] at h3
    exact absurd h3 (by decide)
  rw [hs]
  have hre : (if neg then ['-'] else []) ++ ip ++ '.' :: [d1, d2] =
      ((if neg then ['-'] else []) ++ (ip ++ ['.', d1])) ++ [d2] := by
    simp
  rw [hre, List.getLast?_concat]
  simp [hd2]

theorem parser_money_moneyChars (v : Int) : parser_money (moneyChars v) = some v := by
  unfold parser_money
  rw [if_neg (MoneyShape_getLast (moneyChars_shape v))]
  exact (parser_money_body_shape_iff _ v).mpr (moneyChars_shape v)

theorem plainChar_spec {c : Char} (h : plainChar c = true) :
    ¬ c = ',' ∧ ¬ c = '"' ∧ ¬ c = '\n' ∧ ¬ c = '\r' := by
  unfold plainChar at h
  simp only [Bool.not_eq_true', Bool.or_eq_false_iff, decide_eq_false_iff_not] at h
  exact ⟨h.1.1.1, h.1.1.2, h.1.2, h.2⟩

theorem qChar_spec {c : Char} (h : qChar c = true) : ¬ c = '"' := by
  unfold qChar at h
  simpa using h

theorem plainChar_qChar {c : Char} (h : plainChar c = true) : qChar c = true := by
  have h2 := (plainChar_spec h).2.1
  unfold qChar
  simpa using h2

theorem csvStep_startRecord_plain {c : Char} (hc : plainChar c = true)
    (rows : List (List Str)) :
    csvStep ⟨.startRecord, [], [], rows⟩ c = ⟨.inField, [c], [], rows⟩ := by
  obtain ⟨h1, h2, h3, h4⟩ := plainChar_spec hc
  unfold csvStep
  dsimp only
  rw [if_neg h3, if_neg h4, if_neg h2, if_neg h1]
  rfl

theorem csvStep_startField_plain {c : Char} (hc : plainChar c = true)
    (row : List Str) (rows : List (List Str)) :
    csvStep ⟨.startField, [], row, rows⟩ c = ⟨.inField, [c], row, rows⟩ := by
  obtain ⟨h1, h2, h3, h4⟩ := plainChar_spec hc
  unfold csvStep
  dsimp only
  rw [if_neg h3, if_neg h4, if_neg h2, if_neg h1]
  rfl

theorem csvStep_inField_plain {c : Char} (hc : plainChar c = true)
    (f : Str) (row : List Str) (rows : List (List Str)) :
    csvStep ⟨.inField, f, row, rows⟩ c = ⟨.inField, f ++ [c], row, rows⟩ := by
  obtain ⟨h1, h2, h3, h4⟩ := plainChar_spec hc
  unfold csvStep
  dsimp only
  rw [if_neg h3, if_neg h4, if_neg h1]

theorem csvStep_inQuoted_q {c : Char} (hc : qChar c = true)
    (f : Str) (row : List Str) (rows : List (List Str)) :
    csvStep ⟨.inQuoted, f, row, rows⟩ c = ⟨.inQuoted, f ++ [c], row, rows⟩ := by
  unfold csvStep
  dsimp only
  rw [if_neg (qChar_spec hc)]

theorem run_startRecord_nl (rows : List (List Str)) (rest : Str) :
    List.foldl csvStep ⟨.startRecord, [], [], rows⟩ ('\n' :: rest) =
      List.foldl csvStep ⟨.startRecord, [], [], rows ++ [[]]⟩ rest := by
  rw [List.foldl_cons]
  rfl

theorem run_startField_comma (row : List Str) (rows : List (List Str)) (rest : Str) :
    List.foldl csvStep ⟨.startField, [], row, rows⟩ (',' :: rest) =
      List.foldl csvStep ⟨.startField, [], row ++ [[]], rows⟩ rest := by
  rw [List.foldl_cons]
  rfl

theorem run_startField_quote (row : List Str) (rows : List (List Str)) (rest : Str) :
    List.foldl csvStep ⟨.startField, [], row, rows⟩ ('"' :: rest) =
      List.foldl csvStep ⟨.inQuoted, [], row, rows⟩ rest := by
  rw [List.foldl_cons]
  rfl

theorem run_inField_comma (f : Str) (row : List Str) (rows : List (List Str))
    (rest : Str) :
    List.foldl csvStep ⟨.inField, f, row, rows⟩ (',' :: rest) =
      List.foldl csvStep ⟨.startField, [], row ++ [f], rows⟩ rest := by
  rw [List.foldl_cons]
  rfl

theorem run_inField_nl (f : Str) (row : List Str) (rows : List (List Str))
    (rest : Str) :
    List.foldl csvStep ⟨.inField, f, row, rows⟩ ('\n' :: rest) =
      List.foldl csvStep ⟨.startRecord, [], [], rows ++ [row ++ [f]]⟩ rest := by
  rw [List.foldl_cons]
  rfl

theorem run_inQuoted_quote (f : Str) (row : List Str) (rows : List (List Str))
    (rest : Str) :
    List.foldl csvStep ⟨.inQuoted, f, row, rows⟩ ('"' :: rest) =
      List.foldl csvStep ⟨.quoteInQuoted, f, row, rows⟩ rest := by
  rw [List.foldl_cons]
  rfl

theorem run_qq_comma (f : Str) (row : List Str) (rows : List (List Str))
    (rest : Str) :
    List.foldl csvStep ⟨.quoteInQuoted, f, row, rows⟩ (',' :: rest) =
      List.foldl csvStep ⟨.startField, [], row ++ [f], rows⟩ rest := by
  rw [List.foldl_cons]
  rfl

theorem run_qq_nl (f : Str) (row : List Str) (rows : List (List Str))
    (rest : Str) :
    List.foldl csvStep ⟨.quoteInQuoted, f, row, rows⟩ ('\n' :: rest) =
      List.foldl csvStep ⟨.startRecord, [], [], rows ++ [row ++ [f]]⟩ rest := by
  rw [List.foldl_cons]
  rfl

theorem run_inField_seg (w : Str) (hw : ∀ c ∈ w, plainChar c = true) :
    ∀ (f : Str) (row : List Str) (rows : List (List Str)) (rest : Str),
    List.foldl csvStep ⟨.inField, f, row, rows⟩ (w ++ rest) =
      List.foldl csvStep ⟨.inField, f ++ w, row, rows⟩ rest := by
  induction w with
  | nil => intro f row rows rest; simp
  | cons c cs ih =>
    intro f row rows rest
    rw [List.cons_append, List.foldl_cons, csvStep_inField_plain (hw c (by simp))]
    rw [ih (fun x hx => hw x (by simp [hx])) (f ++ [c])]
    simp

theorem run_inQuoted_seg (w : Str) (hw : ∀ c ∈ w, qChar c = true) :
    ∀ (f : Str) (row : List Str) (rows : List (List Str)) (rest : Str),
    List.foldl csvStep ⟨.inQuoted, f, row, rows⟩ (w ++ rest) =
      List.foldl csvStep ⟨.inQuoted, f ++ w, row, rows⟩ rest := by
  induction w with
  | nil => intro f row rows rest; simp
  | cons c cs ih =>
    intro f row rows rest
    rw [List.cons_append, List.foldl_cons, csvStep_inQuoted_q (hw c (by simp))]
    rw [ih (fun x hx => hw x (by simp [hx])) (f ++ [c])]
    simp

theorem run_startRecord_seg (w : Str) (hne : w ≠ [])
    (hw : ∀ c ∈ w, plainChar c = true) (rows : List (List Str)) (rest : Str) :
    List.foldl csvStep ⟨.startRecord, [], [], rows⟩ (w ++ rest) =
      List.foldl csvStep ⟨.inField, w, [], rows⟩ rest := by
  cases w with
  | nil => exact absurd rfl hne
  | cons c cs =>
    rw [List.cons_append, List.foldl_cons,
      csvStep_startRecord_plain (hw c (by simp)),
      run_inField_seg cs (fun x hx => hw x (by simp [hx]))]
    rfl

theorem run_startField_seg (w : Str) (hne : w ≠ [])
    (hw : ∀ c ∈ w, plainChar c = true) (row : List Str) (rows : List (List Str))
    (rest : Str) :
    List.foldl csvStep ⟨.startField, [], row, rows⟩ (w ++ rest) =
      List.foldl csvStep ⟨.inField, w, row, rows⟩ rest := by
  cases w with
  | nil => exact absurd rfl hne
  | cons c cs =>
    rw [List.cons_append, List.foldl_cons,
      csvStep_startField_plain (hw c (by simp)),
      run_inField_seg cs (fun x hx => hw x (by simp [hx]))]
    rfl

theorem isDigitChar_plain {c : Char} (h : isDigitChar c = true) :
    plainChar c = true := by
  have h1 : ¬ c = ',' := fun he => by rw [he] at h; exact absurd h (by decide)
  have h2 : ¬ c = '"' := fun he => by rw [he] at h; exact absurd h (by decide)
  have h3 : ¬ c = '\n' := fun he => by rw [he] at h; exact absurd h (by decide)
  have h4 : ¬ c = '\r' := fun he => by rw [he] at h; exact absurd h (by decide)
  unfold plainChar
  simp [h1, h2, h3, h4]

theorem to_date_plain (d : Date) : ∀ c ∈ to_date d, plainChar c = true := by
  have hdig : ∀ n : Nat, ∀ c ∈ pad2 n, plainChar c = true := by
    intro n c hc
    unfold pad2 at hc
    rcases List.mem_cons.mp hc with rfl | h2
    · exact isDigitChar_plain (isDigitChar_digitChar (by omega))
    · rw [List.mem_singleton.mp h2]
      exact isDigitChar_plain (isDigitChar_digitChar (by omega))
  intro c hc
  unfold to_date at hc
  rcases List.mem_append.mp hc with h | h
  · rcases List.mem_append.mp h with h1 | h1
    · exact hdig _ c h1
    · rcases List.mem_cons.mp h1 with rfl | h2
      · decide
      · exact hdig _ c h2
  · rcases List.mem_cons.mp h with rfl | h2
    · decide
    · unfold year4 at h2
      rcases List.mem_cons.mp h2 with rfl | h3
      · exact isDigitChar_plain (isDigitChar_digitChar (by omega))
      · rcases List.mem_cons.mp h3 with rfl | h4
        · exact isDigitChar_plain (isDigitChar_digitChar (by omega))
        · rcases List.mem_cons.mp h4 with rfl | h5
          · exact isDigitChar_plain (isDigitChar_digitChar (by omega))
          · rw [List.mem_singleton.mp h5]
            exact isDigitChar_plain (isDigitChar_digitChar (by omega))

theorem to_date_ne_nil (d : Date) : to_date d ≠ [] := by
  unfold to_date pad2
  simp

theorem moneyChars_q (v : Int) : ∀ c ∈ moneyChars v, qChar c = true := by
  intro c hc
  unfold moneyChars at hc
  rcases List.mem_append.mp hc with h | h
  · rcases List.mem_append.mp h with h1 | h1
    · by_cases hv : v < 0
      · rw [if_pos hv] at h1
        rw [List.mem_singleton.mp h1]
        decide
      · rw [if_neg hv] at h1
        exact absurd h1 (List.not_mem_nil c)
    · exact plainChar_qChar (isDigitChar_plain (intPartChars_digits _ c h1))
  · rcases List.mem_cons.mp h with rfl | h2
    · decide
    · unfold pad2 at h2
      rcases List.mem_cons.mp h2 with rfl | h3
      · exact plainChar_qChar (isDigitChar_plain (isDigitChar_digitChar (by omega)))
      · rw [List.mem_singleton.mp h3]
        exact plainChar_qChar (isDigitChar_plain (isDigitChar_digitChar (by omega)))

theorem run_tail_money (f : Str) (v : Int) (row : List Str)
    (rows : List (List Str)) (rest : Str) :
    List.foldl csvStep ⟨.inField, f, row, rows⟩
      (',' :: ',' :: '"' :: (moneyChars v ++ ('"' :: '\n' :: rest))) =
      List.foldl csvStep
        ⟨.startRecord, [], [], rows ++ [row ++ [f, [], moneyChars v]]⟩ rest := by
  rw [run_inField_comma, run_startField_comma, run_startField_quote,
    run_inQuoted_seg (moneyChars v) (moneyChars_q v), run_inQuoted_quote, run_qq_nl]
  simp [List.append_assoc]

theorem run_line1 (rows : List (List Str)) (rest : Str) :
    List.foldl csvStep ⟨.startRecord, [], [], rows⟩
      ("Description,,Summary Amt.\n".data ++ rest) =
      List.foldl csvStep
        ⟨.startRecord, [], [],
          rows ++ [["Description".data, [], "Summary Amt.".data]]⟩ rest := by
  rw [show "Description,,Summary Amt.\n".data ++ rest =
    "Description".data ++ (',' :: ',' :: ("Summary Amt.".data ++ ('\n' :: rest)))
    from rfl]
  rw [run_startRecord_seg "Description".data (by decide) (by decide),
    run_inField_comma, run_startField_comma,
    run_startField_seg "Summary Amt.".data (by decide) (by decide),
    run_inField_nl]
  simp

theorem run_summary_line (lead : Str) (hne : lead ≠ [])
    (hpl : ∀ c ∈ lead, plainChar c = true) (d : Date) (v : Int)
    (rows : List (List Str)) (rest : Str) :
    List.foldl csvStep ⟨.startRecord, [], [], rows⟩
      (lead ++ (to_date d ++ (",,\"".data ++ (moneyChars v ++ ("\"\n".data ++ rest))))) =
      List.foldl csvStep
        ⟨.startRecord, [], [],
          rows ++ [[lead ++ to_date d, [], moneyChars v]]⟩ rest := by
  rw [run_startRecord_seg lead hne hpl,
    run_inField_seg (to_date d) (to_date_plain d)]
  rw [show ",,\"".data ++ (moneyChars v ++ ("\"\n".data ++ rest)) =
    ',' :: ',' :: '"' :: (moneyChars v ++ ('"' :: '\n' :: rest)) from rfl]
  rw [run_tail_money]
  simp

theorem run_line3 (v : Int) (rows : List (List Str)) (rest : Str) :
    List.foldl csvStep ⟨.startRecord, [], [], rows⟩
      ("Total credits,,\"".data ++ (moneyChars v ++ ("\"\n".data ++ rest))) =
      List.foldl csvStep
        ⟨.startRecord, [], [],
          rows ++ [["Total credits".data, [], moneyChars v]]⟩ rest := by
  rw [show "Total credits,,\"".data ++ (moneyChars v ++ ("\"\n".data ++ rest)) =
    "Total credits".data ++
      (',' :: ',' :: '"' :: (moneyChars v ++ ('"' :: '\n' :: rest))) from rfl]
  rw [run_startRecord_seg "Total credits".data (by decide) (by decide),
    run_tail_money]
  simp

theorem run_line4 (v : Int) (rows : List (List Str)) (rest : Str) :
    List.foldl csvStep ⟨.startRecord, [], [], rows⟩
      ("Total debits,,\"".data ++ (moneyChars v ++ ("\"\n".data ++ rest))) =
      List.foldl csvStep
        ⟨.startRecord, [], [],
          rows ++ [["Total debits".data, [], moneyChars v]]⟩ rest := by
  rw [show "Total debits,,\"".data ++ (moneyChars v ++ ("\"\n".data ++ rest)) =
    "Total debits".data ++
      (',' :: ',' :: '"' :: (moneyChars v ++ ('"' :: '\n' :: rest))) from rfl]
  rw [run_startRecord_seg "Total debits".data (by decide) (by decide),
    run_tail_money]
  simp

theorem run_line7 (rows : List (List Str)) (rest : Str) :
    List.foldl csvStep ⟨.startRecord, [], [], rows⟩
      ("Date,Description,Amount,Running Bal.\n".data ++ rest) =
      List.foldl csvStep
        ⟨.startRecord, [], [],
          rows ++ [["Date".data, "Description".data, "Amount".data,
            "Running Bal.".data]]⟩ rest := by
  rw [show "Date,Description,Amount,Running Bal.\n".data ++ rest =
    "Date".data ++ (',' :: ("Description".data ++ (',' :: ("Amount".data ++
      (',' :: ("Running Bal.".data ++ ('\n' :: rest))))))) from rfl]
  rw [run_startRecord_seg "Date".data (by decide) (by decide),
    run_inField_comma,
    run_startField_seg "Description".data (by decide) (by decide),
    run_inField_comma,
    run_startField_seg "Amount".data (by decide) (by decide),
    run_inField_comma,
    run_startField_seg "Running Bal.".data (by decide) (by decide),
    run_inField_nl]
  simp

theorem run_opening_line (d : Date) (v : Int) (rows : List (List Str))
    (rest : Str) :
    List.foldl csvStep ⟨.startRecord, [], [], rows⟩
      (to_date d ++ (",".data ++ (leadBeginning ++ (to_date d ++
        (",,\"".data ++ (moneyChars v ++ ("\"\n".data ++ rest))))))) =
      List.foldl csvStep
        ⟨.startRecord, [], [],
          rows ++ [[to_date d, leadBeginning ++ to_date d, [], moneyChars v]]⟩
        rest := by
  rw [run_startRecord_seg (to_date d) (to_date_ne_nil d) (to_date_plain d)]
  rw [show (",".data : Str) ++ (leadBeginning ++ (to_date d ++
    (",,\"".data ++ (moneyChars v ++ ("\"\n".data ++ rest))))) =
    ',' :: (leadBeginning ++ (to_date d ++
      (",,\"".data ++ (moneyChars v ++ ("\"\n".data ++ rest))))) from rfl]
  rw [run_inField_comma,
    run_startField_seg leadBeginning (by decide) (by decide),
    run_inField_seg (to_date d) (to_date_plain d)]
  rw [show ",,\"".data ++ (moneyChars v ++ ("\"\n".data ++ rest)) =
    ',' :: ',' :: '"' :: (moneyChars v ++ ('"' :: '\n' :: rest)) from rfl]
  rw [run_tail_money]
  simp

theorem run_record_line (r : Record)
    (hq : ∀ c ∈ r.description, qChar c = true) (rows : List (List Str))
    (rest : Str) :
    List.foldl csvStep ⟨.startRecord, [], [], rows⟩ (recordLine r ++ rest) =
      List.foldl csvStep
        ⟨.startRecord, [], [],
          rows ++ [[to_date r.date, r.description, moneyChars r.amount,
            moneyChars r.running_balance]]⟩ rest := by
  unfold recordLine
  simp only [List.append_assoc, List.cons_append, List.nil_append]
  rw [run_startRecord_seg (to_date r.date) (to_date_ne_nil _) (to_date_plain _),
    run_inField_comma, run_startField_quote,
    run_inQuoted_seg r.description hq,
    run_inQuoted_quote, run_qq_comma, run_startField_quote,
    run_inQuoted_seg (moneyChars r.amount) (moneyChars_q _),
    run_inQuoted_quote, run_qq_comma, run_startField_quote,
    run_inQuoted_seg (moneyChars r.running_balance) (moneyChars_q _)]
  rw [show ('"' : Char) :: '\n' :: rest = '"' :: ('\n' :: rest) from rfl,
    run_inQuoted_quote, run_qq_nl]
  simp

theorem run_record_lines (rs : List Record)
    (hq : ∀ r ∈ rs, ∀ c ∈ r.description, qChar c = true) :
    ∀ rows : List (List Str),
    List.foldl csvStep ⟨.startRecord, [], [], rows⟩ ((rs.map recordLine).flatten) =
      ⟨.startRecord, [], [],
        rows ++ rs.map fun r => [to_date r.date, r.description,
          moneyChars r.amount, moneyChars r.running_balance]⟩ := by
  induction rs with
  | nil => intro rows; simp
  | cons r rs ih =>
    intro rows
    rw [List.map_cons, List.flatten_cons,
      run_record_line r (hq r (by simp)) rows,
      ih (fun x hx => hq x (by simp [hx]))]
    simp

/-- Tokenizing a serialized statement with the CSV reader recovers exactly
the eight schema rows followed by one row per transaction record, provided
no description holds a double quote. -/
theorem csv_parse_data_to_str (s : Data)
    (hq : ∀ r ∈ s.records, ∀ c ∈ r.description, qChar c = true) :
    csv_parse (data_to_str s) =
      [["Description".data, [], "Summary Amt.".data],
       [leadBeginning ++ to_date s.beginning_date, [],
         moneyChars s.beginning_balance],
       ["Total credits".data, [], moneyChars s.total_credits],
       ["Total debits".data, [], moneyChars s.total_debits],
       [leadEnding ++ to_date s.ending_date, [], moneyChars s.ending_balance],
       [],
       ["Date".data, "Description".data, "Amount".data, "Running Bal.".data],
       [to_date s.beginning_date, leadBeginning ++ to_date s.beginning_date, [],
         moneyChars s.beginning_balance]] ++
      s.records.map (fun r => [to_date r.date, r.description,
        moneyChars r.amount, moneyChars r.running_balance]) := by
  have hrun : List.foldl csvStep csvInit (data_to_str s) =
      ⟨.startRecord, [], [],
        [["Description".data, [], "Summary Amt.".data],
         [leadBeginning ++ to_date s.beginning_date, [],
           moneyChars s.beginning_balance],
         ["Total credits".data, [], moneyChars s.total_credits],
         ["Total debits".data, [], moneyChars s.total_debits],
         [leadEnding ++ to_date s.ending_date, [], moneyChars s.ending_balance],
         [],
         ["Date".data, "Description".data, "Amount".data, "Running Bal.".data],
         [to_date s.beginning_date, leadBeginning ++ to_date s.beginning_date, [],
           moneyChars s.beginning_balance]] ++
        s.records.map (fun r => [to_date r.date, r.description,
          moneyChars r.amount, moneyChars r.running_balance])⟩ := by
    unfold data_to_str
    rw [show csvInit = (⟨.startRecord, [], [], []⟩ : CsvState) from rfl]
    simp only [List.append_assoc]
    rw [run_line1,
      run_summary_line leadBeginning (by decide) (by decide),
      run_line3, run_line4,
      run_summary_line leadEnding (by decide) (by decide)]
    rw [show ("\n".data : Str) ++ ("Date,Description,Amount,Running Bal.\n".data ++
      (to_date s.beginning_date ++ (",".data ++ (leadBeginning ++
        (to_date s.beginning_date ++ (",,\"".data ++
          (moneyChars s.beginning_balance ++ ("\"\n".data ++
            (s.records.map recordLine).flatten)))))))) =
      '\n' :: ("Date,Description,Amount,Running Bal.\n".data ++
      (to_date s.beginning_date ++ (",".data ++ (leadBeginning ++
        (to_date s.beginning_date ++ (",,\"".data ++
          (moneyChars s.beginning_balance ++ ("\"\n".data ++
            (s.records.map recordLine).flatten)))))))) from rfl]
    rw [run_startRecord_nl, run_line7, run_opening_line]
    rw [run_record_lines s.records hq]
    simp
  unfold csv_parse
  rw [hrun]

/- ------------------------------------------------------------------
Inverting the field parsers on rendered text. -/

theorem ensure_pos {p : Prop} [Decidable p] (hp : p) {α : Type} (k : Option α) :
    ensure p k = k := if_pos hp

theorem ensure_some {p : Prop} [Decidable p] {α : Type} {k : Option α} {x : α}
    (h : ensure p k = some x) : p ∧ k = some x := by
  unfold ensure at h
  by_cases hp : p
  · rw [if_pos hp] at h
    exact ⟨hp, h⟩
  · rw [if_neg hp] at h
    exact absurd h (by simp)

theorem isPrefixOf_append (lead r : Str) : lead.isPrefixOf (lead ++ r) = true := by
  induction lead with
  | nil => simp [List.isPrefixOf]
  | cons c cs ih => simp [List.isPrefixOf, ih]

theorem removeLead_append (lead r : Str) : removeLead lead (lead ++ r) = some r := by
  unfold removeLead
  rw [if_pos (isPrefixOf_append lead r)]
  rw [List.drop_left]

theorem isDigitChar_digitChar_mod (n : Nat) :
    isDigitChar (Nat.digitChar (n % 10)) = true :=
  isDigitChar_digitChar (by omega)

theorem digitVal_digitChar_mod (n : Nat) :
    digitVal (Nat.digitChar (n % 10)) = n % 10 :=
  digitVal_digitChar (by omega)

theorem monthLen_le (y m : Nat) : monthLen y m ≤ 31 := by
  unfold monthLen
  split_ifs <;> omega

theorem parser_date_to_date {d : Date} (h : DateValid d) :
    parser_date (to_date d) = some d := by
  obtain ⟨y, m, dd⟩ := d
  obtain ⟨h1, h2, h3, h4, h5, h6⟩ := h
  have h1' : 1 ≤ m := h1
  have h2' : m ≤ 12 := h2
  have h3' : 1 ≤ dd := h3
  have h4' : dd ≤ monthLen y m := h4
  have h5' : 1000 ≤ y := h5
  have h6' : y ≤ 9999 := h6
  clear h1 h2 h3 h4 h5 h6
  have hml : monthLen y m ≤ 31 := monthLen_le y m
  unfold to_date pad2 year4 parser_date
  simp only [List.cons_append, List.nil_append]
  rw [if_pos (by simp [isDigitChar_digitChar_mod])]
  have hyr : charsVal [Nat.digitChar (y / 1000 % 10), Nat.digitChar (y / 100 % 10),
      Nat.digitChar (y / 10 % 10), Nat.digitChar (y % 10)] = y := by
    unfold charsVal
    dsimp only [List.foldl]
    rw [digitVal_digitChar_mod, digitVal_digitChar_mod, digitVal_digitChar_mod,
      digitVal_digitChar_mod]
    omega
  rw [hyr]
  rw [digitVal_digitChar_mod, digitVal_digitChar_mod, digitVal_digitChar_mod,
    digitVal_digitChar_mod]
  have hmo : 10 * (m / 10 % 10) + m % 10 = m := by omega
  have hdd : 10 * (dd / 10 % 10) + dd % 10 = dd := by omega
  rw [hmo, hdd]
  rw [if_pos ⟨by omega, by omega, by omega, by omega, by omega⟩]

theorem parseSummaryMoneyRow_render (lead : Str) (d : Date) (v : Int)
    (hd : DateValid d) :
    parseSummaryMoneyRow lead [lead ++ to_date d, [], moneyChars v] =
      some (d, v) := by
  unfold parseSummaryMoneyRow
  dsimp only
  rw [removeLead_append, Option.some_bind, parser_date_to_date hd,
    Option.some_bind, ensure_pos rfl, parser_money_moneyChars, Option.some_bind]

theorem parseLabelMoneyRow_render (label : Str) (v : Int) :
    parseLabelMoneyRow label [label, [], moneyChars v] = some v := by
  unfold parseLabelMoneyRow
  dsimp only
  rw [ensure_pos rfl, ensure_pos rfl, parser_money_moneyChars]

theorem parseOpeningRow_render (d : Date) (v : Int) (hd : DateValid d) :
    parseOpeningRow [to_date d, leadBeginning ++ to_date d, [], moneyChars v] =
      some (d, d, v) := by
  unfold parseOpeningRow
  dsimp only
  rw [parser_date_to_date hd, Option.some_bind, removeLead_append,
    Option.some_bind, parser_date_to_date hd, Option.some_bind,
    ensure_pos rfl, parser_money_moneyChars, Option.some_bind]

theorem parseRecordRows_render (rs : List Record)
    (hd : ∀ r ∈ rs, DateValid r.date)
    (hb : ∀ r ∈ rs, r.balance_before + r.amount = r.running_balance) :
    parseRecordRows (rs.map fun r => [to_date r.date, r.description,
      moneyChars r.amount, moneyChars r.running_balance]) = some rs := by
  induction rs with
  | nil => rfl
  | cons r rs ih =>
    rw [List.map_cons]
    unfold parseRecordRows
    have hrow : parseRecordRow [to_date r.date, r.description,
        moneyChars r.amount, moneyChars r.running_balance] = some r := by
      unfold parseRecordRow
      dsimp only
      rw [parser_date_to_date (hd r (by simp)), Option.some_bind,
        parser_money_moneyChars, Option.some_bind,
        parser_money_moneyChars, Option.some_bind]
      have hb2 := hb r (by simp)
      obtain ⟨dt, ds, bb, am, rb⟩ := r
      have hb3 : bb + am = rb := hb2
      simp only [Option.some.injEq, Record.mk.injEq, and_true, true_and]
      omega
    rw [hrow, Option.some_bind,
      ih (fun x hx => hd x (by simp [hx])) (fun x hx => hb x (by simp [hx])),
      Option.some_bind]

/-- Parsing the serialization of a §3-valid statement (with representable
dates and quote-free descriptions) yields the statement back, structurally
equal. -/
theorem parse_file_data_to_str (s : Data) (hv : validate s)
    (hbd : DateValid s.beginning_date) (hed : DateValid s.ending_date)
    (hrd : ∀ r ∈ s.records, DateValid r.date)
    (hq : ∀ r ∈ s.records, ∀ c ∈ r.description, qChar c = true) :
    parse_file (data_to_str s) = some s := by
  have hbal : ∀ r ∈ s.records, r.balance_before + r.amount = r.running_balance :=
    hv.2.2.2.2.2.1
  unfold parse_file
  rw [csv_parse_data_to_str s hq]
  simp only [List.cons_append, List.nil_append]
  rw [ensure_pos trivial,
    parseSummaryMoneyRow_render leadBeginning _ _ hbd, Option.some_bind,
    parseLabelMoneyRow_render, Option.some_bind,
    parseLabelMoneyRow_render, Option.some_bind,
    parseSummaryMoneyRow_render leadEnding _ _ hed, Option.some_bind,
    ensure_pos trivial, ensure_pos trivial,
    parseOpeningRow_render _ _ hbd, Option.some_bind]
  rw [ensure_pos ⟨rfl, rfl⟩, ensure_pos rfl,
    parseRecordRows_render s.records hrd hbal, Option.some_bind]
  rw [ensure_pos hv, ensure_pos rfl]

/-- Whenever `parse_file` accepts a raw text, re-serializing its result
reproduces that text byte for byte: the final assert of `parse_file` makes
any divergence fatal. -/
theorem parse_file_serialize {raw : Str} {d : Data}
    (h : parse_file raw = some d) : data_to_str d = raw := by
  unfold parse_file at h
  rcases h1 : csv_parse raw with - | ⟨r1, l1⟩ <;> rw [h1] at h
  · simp at h
  rcases l1 with - | ⟨r2, l2⟩
  · simp at h
  rcases l2 with - | ⟨r3, l3⟩
  · simp at h
  rcases l3 with - | ⟨r4, l4⟩
  · simp at h
  rcases l4 with - | ⟨r5, l5⟩
  · simp at h
  rcases l5 with - | ⟨r6, l6⟩
  · simp at h
  rcases l6 with - | ⟨r7, l7⟩
  · simp at h
  rcases l7 with - | ⟨r8, rest⟩
  · simp at h
  obtain ⟨-, h⟩ := ensure_some h
  obtain ⟨p1, -, h⟩ := Option.bind_eq_some.mp h
  obtain ⟨tc, -, h⟩ := Option.bind_eq_some.mp h
  obtain ⟨td, -, h⟩ := Option.bind_eq_some.mp h
  obtain ⟨p5, -, h⟩ := Option.bind_eq_some.mp h
  obtain ⟨-, h⟩ := ensure_some h
  obtain ⟨-, h⟩ := ensure_some h
  obtain ⟨p8, -, h⟩ := Option.bind_eq_some.mp h
  obtain ⟨-, h⟩ := ensure_some h
  obtain ⟨-, h⟩ := ensure_some h
  obtain ⟨records, -, h⟩ := Option.bind_eq_some.mp h
  obtain ⟨-, h⟩ := ensure_some h
  obtain ⟨hraw, h⟩ := ensure_some h
  rw [← Option.some.inj h]
  exact hraw.symm

/-- C1 (amended).  Serialize-after-parse is the identity on every accepted
raw text (the parser's final assert rejects any divergence wholesale), and
parse-after-serialize is the identity on every Statement satisfying the §3
invariants whose dates are representable calendar dates (year 1000-9999, as
`datetime` round-tripping requires) and whose descriptions hold no double
quote — the serializer does not CSV-escape quotes, so a quoted description
breaks the round trip (see the counterexample). -/
theorem round_trip_law :
    (∀ raw d, parse_file raw = some d → data_to_str d = raw) ∧
    (∀ s : Data, validate s →
      DateValid s.beginning_date → DateValid s.ending_date →
      (∀ r ∈ s.records, DateValid r.date) →
      (∀ r ∈ s.records, ∀ c ∈ r.description, qChar c = true) →
      parse_file (data_to_str s) = some s) :=
  ⟨fun _ _ h => parse_file_serialize h,
   fun s hv hbd hed hrd hq => parse_file_data_to_str s hv hbd hed hrd hq⟩

/-- Counterexample to C1 as stated: `exQ` satisfies every §3 invariant, but
its single record's description is one double quote, which `data_to_str`
does not escape; the CSV reader then reassembles a three-cell row out of the
serialized line and parsing fails, so `parse_file (data_to_str exQ)` is a
fatal error rather than `some exQ`. -/
theorem round_trip_cex :
    validate exQ ∧ parse_file (data_to_str exQ) = none := by
  constructor
  · decide
  · rfl
